import Mathlib

/-!
Shallow embedding of the fdl repository's core (lexer, data model, parser,
controlled traversal), translated from `src/lexer.rs`, `src/core.rs`,
`src/string_utils.rs` and `src/parser.rs`.

Modelling conventions:
* Rust `Vec<char>` is `List Char`; `usize` indices are `Nat`.
* Rust's Unicode character classes (`is_whitespace`, `is_numeric`,
  `is_alphanumeric`) are modelled on the ASCII range (`Char.isDigit`,
  `Char.isAlphanum`, and the ASCII whitespace set); the grammar and all
  properties under study use ASCII sources.
* The `while` loops of `skip_whitespace`, `consume_word` and
  `consume_number` always terminate after at most `source.length - index`
  steps (each iteration consumes one in-bounds character, and the
  out-of-bounds sentinel `'\x00'` fails every loop condition), so they are
  given exactly that much structural fuel, which makes them total and
  extensionally equal to the Rust loops.  The loop of `consume_string` can
  run past the end of the input (its condition holds at the sentinel), so
  it takes an external fuel parameter and returns `none` when the fuel runs
  out; likewise the top-level token loop.
* `HashMap` is modelled as an association list with overwrite-on-duplicate
  insertion; the map's iteration order is implementation-defined in the
  source, the list order is one such order.
* Rust's `f32` values are not modelled (floating point); a `Float` prop
  stores its raw literal, and the success of `str::parse::<f32>` is
  modelled by the grammar of Rust's float `FromStr` implementation.
-/

inductive TokenKind where
  | String
  | Number
  | Word
  | Symbol
deriving DecidableEq, Repr

structure Token where
  kind : TokenKind
  literal : String
deriving DecidableEq, Repr

structure TokenInfo where
  line : Nat
  col : Nat
deriving DecidableEq, Repr

structure Lexer where
  source : List Char
  index : Nat
  line : Nat
  last_line_index : Nat
deriving DecidableEq, Repr

def Lexer.new (source : List Char) : Lexer := ⟨source, 0, 0, 0⟩

def Lexer.peek_offset (l : Lexer) (offset : Int) : Char :=
  let peek_index : Int := (l.index : Int) + offset
  if peek_index < 0 then '\x00'
  else
    match l.source.get? peek_index.toNat with
    | some c => c
    | none => '\x00'

def Lexer.peek (l : Lexer) : Char := l.peek_offset 0

def Lexer.advance (l : Lexer) : Lexer := ⟨l.source, l.index + 1, l.line, l.last_line_index⟩

/-- ASCII part of Rust's `char::is_whitespace` (Unicode `White_Space`). -/
def isRustWhitespace (c : Char) : Bool :=
  c == ' ' || c == '\t' || c == '\n' || c == '\x0b' || c == '\x0c' || c == '\r'

def skip_whitespace_go : Nat → Lexer → Lexer
  | 0, l => l
  | n+1, l =>
    if isRustWhitespace l.peek then
      if l.peek = '\n' then
        skip_whitespace_go n ⟨l.source, l.index + 1, l.line + 1, l.index + 1⟩
      else
        skip_whitespace_go n ⟨l.source, l.index + 1, l.line, l.last_line_index⟩
    else l

def Lexer.skip_whitespace (l : Lexer) : Lexer :=
  skip_whitespace_go (l.source.length - l.index) l

def Lexer.consume_char (l : Lexer) : Token × Lexer :=
  let c := l.peek
  if c = '\x00' then (⟨TokenKind.Symbol, String.mk [c]⟩, l)
  else (⟨TokenKind.Symbol, String.mk [c]⟩, l.advance)

def consume_word_go : Nat → Lexer → List Char → List Char × Lexer
  | 0, l, acc => (acc, l)
  | n+1, l, acc =>
    if l.peek.isAlphanum || l.peek == '_' then
      consume_word_go n l.advance (acc ++ [l.peek])
    else (acc, l)

def Lexer.consume_word (l : Lexer) : Token × Lexer :=
  let r := consume_word_go (l.source.length - l.index) l []
  (⟨TokenKind.Word, String.mk r.1⟩, r.2)

def consume_number_go : Nat → Lexer → List Char → List Char × Lexer
  | 0, l, acc => (acc, l)
  | n+1, l, acc =>
    if l.peek.isDigit || (l.peek == '.' && (l.peek_offset 1).isDigit) then
      consume_number_go n l.advance (acc ++ [l.peek])
    else (acc, l)

def Lexer.consume_number (l : Lexer) : Token × Lexer :=
  let r := consume_number_go (l.source.length - l.index) l []
  (⟨TokenKind.Number, String.mk r.1⟩, r.2)

def consume_string_go : Nat → Lexer → List Char → Option (List Char × Lexer)
  | 0, _, _ => none
  | n+1, l, acc =>
    if l.peek != '"' || l.peek_offset (-1) == '\\' then
      consume_string_go n l.advance (acc ++ [l.peek])
    else
      some (acc ++ [l.peek], l.advance)

def Lexer.consume_string (fuel : Nat) (l : Lexer) : Option (Token × Lexer) :=
  match consume_string_go fuel l.advance [l.peek] with
  | none => none
  | some (lit, l') => some (⟨TokenKind.String, String.mk lit⟩, l')

inductive LexStep where
  | tok : Token → TokenInfo → Lexer → LexStep
  | eof : LexStep
  | spin : LexStep
deriving DecidableEq, Repr

def Lexer.consume (fuel : Nat) (l₀ : Lexer) : LexStep :=
  let l := l₀.skip_whitespace
  let info : TokenInfo := ⟨l.line, l.index - l.last_line_index⟩
  let c := l.peek
  if c.isDigit then
    let r := l.consume_number
    LexStep.tok r.1 info r.2
  else if c.isAlpha then
    let r := l.consume_word
    LexStep.tok r.1 info r.2
  else if c = '"' then
    match l.consume_string fuel with
    | none => LexStep.spin
    | some (t, l') => LexStep.tok t info l'
  else if c = '\x00' then LexStep.eof
  else
    let r := l.consume_char
    LexStep.tok r.1 info r.2

def tokenize_go : Nat → Lexer → Option (List (Token × TokenInfo))
  | 0, _ => none
  | n+1, l =>
    match l.consume (n+1) with
    | LexStep.eof => some []
    | LexStep.spin => none
    | LexStep.tok t info l' =>
      match tokenize_go n l' with
      | none => none
      | some rest => some ((t, info) :: rest)

/-- `Lexer::new(s)` followed by collecting the `Iterator`, with fuel. -/
def tokenize (s : String) (fuel : Nat) : Option (List (Token × TokenInfo)) :=
  tokenize_go fuel (Lexer.new s.data)

/-! ## `src/string_utils.rs` -/

/-- `strip_quotes`: drop one leading quote if the value starts with `"`,
and one trailing quote if the (original) value ends with `"`. -/
def strip_quotes (val : List Char) : List Char :=
  let s1 := if val.head? = some '"' then val.tail else val
  if val.getLast? = some '"' then s1.dropLast else s1

/-! ## `src/core.rs`: Prop and PropValue

The Rust struct is named `Prop`; Lean reserves that name, so the struct is
`FdlProp` here. -/

inductive PropValue where
  | Int : Int → PropValue
  | Float : String → PropValue
  | Bool : Bool → PropValue
  | String : String → PropValue
  | Err
deriving DecidableEq, Repr

structure FdlProp where
  name : String
  value : PropValue
deriving DecidableEq, Repr

def digitsToNat (l : List Char) : Nat := l.foldl (fun a c => a * 10 + (c.toNat - 48)) 0

/-- Rust `str::parse::<i32>` on a sign-stripped digit string: nonempty, all
digits, in-range (out-of-range input is an overflow error). -/
def parseI32Digits (ds : List Char) (neg : Bool) : Option Int :=
  if ds = [] ∨ ¬ (ds.all Char.isDigit) then none
  else
    let v : Int := if neg then -(digitsToNat ds : Int) else (digitsToNat ds : Int)
    if -(2^31) ≤ v ∧ v ≤ 2^31 - 1 then some v else none

def parseI32 (s : String) : Option Int :=
  match s.data with
  | '+' :: rest => parseI32Digits rest false
  | '-' :: rest => parseI32Digits rest true
  | ds => parseI32Digits ds false

def parseRustBool (s : String) : Option Bool :=
  if s = "true" then some true else if s = "false" then some false else none

def splitAtExpMark : List Char → List Char × Option (List Char)
  | [] => ([], none)
  | c :: rest =>
    if c = 'e' ∨ c = 'E' then ([], some rest)
    else
      let r := splitAtExpMark rest
      (c :: r.1, r.2)

def mantissaOk (m : List Char) : Bool :=
  let d1 := m.takeWhile Char.isDigit
  let rest := m.drop d1.length
  match rest with
  | [] => !d1.isEmpty
  | '.' :: d2 => d2.all Char.isDigit && (!d1.isEmpty || !d2.isEmpty)
  | _ => false

def expPartOk (e : List Char) : Bool :=
  let e' := match e with
    | c :: rest => if c = '+' ∨ c = '-' then rest else e
    | [] => e
  !e'.isEmpty && e'.all Char.isDigit

/-- The grammar of Rust's `f32` `FromStr` implementation: optional sign,
then `inf`/`infinity`/`nan` (case-insensitive) or a decimal mantissa with
an optional exponent.  Only parse success is modelled; the numeric value
of a float prop is not (floating point), the prop keeps its literal. -/
def parseF32Grammar (s : String) : Bool :=
  let l' := match s.data with
    | c :: rest => if c = '+' ∨ c = '-' then rest else s.data
    | [] => s.data
  let lower := l'.map Char.toLower
  if lower = "inf".data ∨ lower = "infinity".data ∨ lower = "nan".data then true
  else
    let r := splitAtExpMark l'
    mantissaOk r.1 && (match r.2 with | none => true | some e => expPartOk e)

def FdlProp.new_err (name : String) : FdlProp := ⟨name, PropValue.Err⟩

def FdlProp.int_from_literal (name literal : String) : FdlProp :=
  match parseI32 literal with
  | some val => ⟨name, PropValue.Int val⟩
  | none => FdlProp.new_err name

def FdlProp.float_from_literal (name literal : String) : FdlProp :=
  if parseF32Grammar literal then ⟨name, PropValue.Float literal⟩
  else FdlProp.new_err name

def FdlProp.bool_from_literal (name literal : String) : FdlProp :=
  match parseRustBool literal with
  | some val => ⟨name, PropValue.Bool val⟩
  | none => FdlProp.new_err name

def FdlProp.string_from_literal (name literal : String) : FdlProp :=
  ⟨name, PropValue.String (String.mk (strip_quotes literal.data))⟩

/-! ## `src/core.rs`: Thing -/

inductive Thing where
  | mk (name : String) (props : List (String × FdlProp)) (things : List (String × Thing))
deriving Repr

def Thing.name : Thing → String
  | ⟨n, _, _⟩ => n

def Thing.props : Thing → List (String × FdlProp)
  | ⟨_, p, _⟩ => p

def Thing.things : Thing → List (String × Thing)
  | ⟨_, _, t⟩ => t

/-- `HashMap::insert` as overwrite-or-append on an association list. -/
def insertKV {α : Type} (k : String) (v : α) : List (String × α) → List (String × α)
  | [] => [(k, v)]
  | (k', v') :: rest => if k' = k then (k, v) :: rest else (k', v') :: insertKV k v rest

def lookupKV {α : Type} (k : String) : List (String × α) → Option α
  | [] => none
  | (k', v') :: rest => if k' = k then some v' else lookupKV k rest

def Thing.new (name : String) : Thing := ⟨name, [], []⟩

def Thing.add_prop : Thing → FdlProp → Thing
  | ⟨n, ps, ts⟩, p => ⟨n, insertKV p.name p ps, ts⟩

/-- `Thing::add_thing` keys the child by its own `name` and returns the
previously stored child, if any. -/
def Thing.add_thing : Thing → Thing → Option Thing × Thing
  | ⟨n, ps, ts⟩, c => (lookupKV c.name ts, ⟨n, ps, insertKV c.name c ts⟩)

def Thing.num_things (t : Thing) : Nat := t.things.length

def Thing.get_thing (t : Thing) (key : String) : Option Thing := lookupKV key t.things

/-! ## `src/core.rs`: controlled traversal

`foreach_ctrl_helper` takes an `FnMut` visitor; the embedding takes a pure
visitor and additionally returns the list of visited nodes in visit order
(the observable effect of the `FnMut` closure). -/

inductive ForeachCtrl where
  | Break
  | BreakSubtree
  | Continue
deriving DecidableEq, Repr

mutual

def foreach_ctrl_helper (f : Thing → Option Thing → Nat → ForeachCtrl)
    (thing : Thing) (parent : Option Thing) (depth : Nat) : ForeachCtrl × List Thing :=
  match f thing parent depth with
  | ForeachCtrl.Break => (ForeachCtrl.Break, [thing])
  | ForeachCtrl.BreakSubtree => (ForeachCtrl.BreakSubtree, [thing])
  | ForeachCtrl.Continue =>
    match thing with
    | Thing.mk n ps ts =>
      let r := foreach_ctrl_children f (Thing.mk n ps ts) ts depth
      (r.1, Thing.mk n ps ts :: r.2)
termination_by sizeOf thing

def foreach_ctrl_children (f : Thing → Option Thing → Nat → ForeachCtrl)
    (parent : Thing) : List (String × Thing) → Nat → ForeachCtrl × List Thing
  | [], _ => (ForeachCtrl.Continue, [])
  | (_, child) :: rest, depth =>
    match foreach_ctrl_helper f child (some parent) (depth + 1) with
    | (ForeachCtrl.Break, log) => (ForeachCtrl.Break, log)
    | (_, log) =>
      let r := foreach_ctrl_children f parent rest depth
      (r.1, log ++ r.2)
termination_by l _ => sizeOf l

end

def Thing.foreach_ctrl (t : Thing) (f : Thing → Option Thing → Nat → ForeachCtrl) :
    ForeachCtrl × List Thing :=
  foreach_ctrl_helper f t none 0

mutual

def Thing.noErrProps : Thing → Bool
  | Thing.mk _ ps ts =>
    ps.all (fun kp => !(kp.2.value == PropValue.Err)) && Thing.noErrPropsList ts

def Thing.noErrPropsList : List (String × Thing) → Bool
  | [] => true
  | (_, c) :: rest => Thing.noErrProps c && Thing.noErrPropsList rest

end

mutual

def Thing.keysOk : Thing → Bool
  | Thing.mk _ _ ts => Thing.keysOkList ts

def Thing.keysOkList : List (String × Thing) → Bool
  | [] => true
  | (k, c) :: rest => (k == c.name) && Thing.keysOk c && Thing.keysOkList rest

end

/-! ## `src/parser.rs` -/

structure ParseError where
  token_info : TokenInfo
  message : String
deriving DecidableEq, Repr

structure Parser where
  things : List (String × Thing)
  thing_stack : List Thing
deriving Repr

def Parser.new : Parser := ⟨[], []⟩

def Parser.add_thing (p : Parser) (name_literal : String) : Parser :=
  ⟨p.things, Thing.new (String.mk (strip_quotes name_literal.data)) :: p.thing_stack⟩

/-- `Parser::parse_thing`; the token stream is a list, the returned list is
what is left of the iterator. -/
def Parser.parse_thing (p : Parser) (token_info : TokenInfo)
    (iter : List (Token × TokenInfo)) : Except ParseError (Parser × List (Token × TokenInfo)) :=
  match iter with
  | [] => Except.error ⟨token_info, "Expected String name after keyword `thing`"⟩
  | (token_p1, token_p1_info) :: iter1 =>
    if token_p1.kind ≠ TokenKind.String then
      Except.error ⟨token_p1_info, "Expected String name after keyword `thing`"⟩
    else
      match iter1 with
      | [] => Except.error ⟨token_p1_info, "Expected `\x7b` after thing name"⟩
      | (token_p2, token_p2_info) :: iter2 =>
        if token_p2.kind ≠ TokenKind.Symbol ∨ token_p2.literal ≠ "\x7b" then
          Except.error ⟨token_p2_info, "Expected `\x7b` after thing name"⟩
        else
          Except.ok (p.add_thing token_p1.literal, iter2)

def Parser.parse_prop (p : Parser) (token : Token) (token_info : TokenInfo)
    (iter : List (Token × TokenInfo)) : Except ParseError (Parser × List (Token × TokenInfo)) :=
  match p.thing_stack with
  | [] => Except.error ⟨token_info, "Unexpected prop definition outside of thing"⟩
  | top :: stack_rest =>
    match iter with
    | [] => Except.error ⟨token_info, "Expected name after prop type"⟩
    | (token_name, token_name_info) :: iter1 =>
      if token_name.kind ≠ TokenKind.Word then
        Except.error ⟨token_name_info, "Expected name after prop type"⟩
      else
        match iter1 with
        | [] => Except.error ⟨token_name_info, "Expected `=` symbol prop name"⟩
        | (token_eq, token_eq_info) :: iter2 =>
          if token_eq.kind ≠ TokenKind.Symbol ∨ token_eq.literal ≠ "=" then
            Except.error ⟨token_eq_info, "Expected `=` symbol prop name"⟩
          else
            match iter2 with
            | [] => Except.error ⟨token_eq_info, "Expected value after prop declaration"⟩
            | (token_val, token_val_info) :: iter3 =>
              let prop? : Option FdlProp :=
                if token.literal = "int" then
                  some (FdlProp.int_from_literal token_name.literal token_val.literal)
                else if token.literal = "float" then
                  some (FdlProp.float_from_literal token_name.literal token_val.literal)
                else if token.literal = "bool" then
                  some (FdlProp.bool_from_literal token_name.literal token_val.literal)
                else if token.literal = "string" then
                  some (FdlProp.string_from_literal token_name.literal token_val.literal)
                else none
              match prop? with
              | none =>
                Except.error ⟨token_info, "Unexpected prop type `" ++ token.literal ++ "`"⟩
              | some prop =>
                match prop.value with
                | PropValue.Err =>
                  Except.error ⟨token_val_info, "Unable to parse prop value matching declared prop type"⟩
                | _ =>
                  Except.ok (⟨p.things, top.add_prop prop :: stack_rest⟩, iter3)

def Parser.parse_token (p : Parser) (token : Token) (token_info : TokenInfo)
    (iter : List (Token × TokenInfo)) : Except ParseError (Parser × List (Token × TokenInfo)) :=
  match token.kind with
  | TokenKind.Word =>
    if token.literal = "thing" then p.parse_thing token_info iter
    else if token.literal = "int" ∨ token.literal = "float" ∨ token.literal = "bool" ∨ token.literal = "string" then
      p.parse_prop token token_info iter
    else Except.error ⟨token_info, "Unexpected token"⟩
  | TokenKind.Symbol =>
    if token.literal = "\x7d" then
      match p.thing_stack with
      | [] => Except.error ⟨token_info, "Unexpected symbol: `\x7d`"⟩
      | thing :: rest =>
        match rest with
        | parent :: rest2 => Except.ok (⟨p.things, (parent.add_thing thing).2 :: rest2⟩, iter)
        | [] => Except.ok (⟨insertKV thing.name thing p.things, []⟩, iter)
    else Except.error ⟨token_info, "Unexpected token"⟩
  | _ => Except.error ⟨token_info, "Unexpected token"⟩

theorem parse_thing_iter_le {p p' : Parser} {info : TokenInfo}
    {iter iter' : List (Token × TokenInfo)}
    (h : p.parse_thing info iter = Except.ok (p', iter')) : iter'.length ≤ iter.length := by
  rcases iter with _ | ⟨⟨t1, i1⟩, _ | ⟨⟨t2, i2⟩, iter2⟩⟩ <;>
    simp only [Parser.parse_thing] at h
  · cases h
  · split at h <;> cases h
  · split at h
    · cases h
    · split at h
      · cases h
      · simp only [Except.ok.injEq, Prod.mk.injEq] at h
        obtain ⟨-, rfl⟩ := h
        simp
        omega

theorem parse_prop_iter_le {p p' : Parser} {tok : Token} {info : TokenInfo}
    {iter iter' : List (Token × TokenInfo)}
    (h : p.parse_prop tok info iter = Except.ok (p', iter')) : iter'.length ≤ iter.length := by
  rcases iter with _ | ⟨⟨t1, i1⟩, _ | ⟨⟨t2, i2⟩, _ | ⟨⟨t3, i3⟩, iter3⟩⟩⟩ <;>
    rcases hs : p.thing_stack with _ | ⟨top, stack_rest⟩ <;>
    simp only [Parser.parse_prop, hs] at h
  all_goals try cases h
  all_goals split_ifs at h
  all_goals try cases h
  all_goals try (split at h <;> try cases h)
  all_goals try (split at h <;> try cases h)
  all_goals simp
  all_goals omega

theorem parse_token_iter_le {p p' : Parser} {tok : Token} {info : TokenInfo}
    {iter iter' : List (Token × TokenInfo)}
    (h : p.parse_token tok info iter = Except.ok (p', iter')) : iter'.length ≤ iter.length := by
  cases hk : tok.kind <;> simp only [Parser.parse_token, hk] at h
  case String => cases h
  case Number => cases h
  case Word =>
    split_ifs at h
    · exact parse_thing_iter_le h
    · exact parse_prop_iter_le h
  case Symbol =>
    split_ifs at h
    · split at h
      · cases h
      · split at h <;>
          (simp only [Except.ok.injEq, Prod.mk.injEq] at h; obtain ⟨-, rfl⟩ := h; simp)

/-- `Parser::from_tokens`: the `while let` loop over the token stream,
followed by the end-of-stream stack check. -/
def Parser.from_tokens_loop (p : Parser) (toks : List (Token × TokenInfo)) : Except ParseError Parser :=
  match toks with
  | [] =>
    match p.thing_stack with
    | [] => Except.ok p
    | thing :: _ =>
      Except.error ⟨⟨0, 0⟩, "Token `" ++ thing.name ++ "` is missing a closing brace `\x7d`"⟩
  | (token, token_info) :: rest =>
    match h : p.parse_token token token_info rest with
    | Except.error e => Except.error e
    | Except.ok (p', iter') => Parser.from_tokens_loop p' iter'
termination_by toks.length
decreasing_by
  simp only [List.length_cons]
  exact Nat.lt_succ_of_le (parse_token_iter_le h)

def Parser.from_tokens (toks : List (Token × TokenInfo)) : Except ParseError Parser :=
  Parser.from_tokens_loop Parser.new toks

/-! ## Derived definitions used by the verification -/

/-- Number of newline characters strictly before index `i` of the source. -/
def specLine (s : List Char) (i : Nat) : Nat := (s.take i).count '\n'

/-- Offset of index `i` from the start of its line (the character count
since the last newline before `i`). -/
def specCol (s : List Char) (i : Nat) : Nat :=
  ((s.take i).reverse.takeWhile (fun c => c != '\n')).length

/-- The run of characters `consume_number`'s loop accepts: digits, plus a
dot only when the character right after the dot is a digit. -/
def numTake : List Char → List Char
  | [] => []
  | c :: rest =>
    if c.isDigit then c :: numTake rest
    else if c == '.' && (match rest with | d :: _ => d.isDigit | [] => false) then
      c :: numTake rest
    else []

/-- The predicate of `consume_word`'s loop. -/
def isWordChar (c : Char) : Bool := c.isAlphanum || c == '_'

/-- `tokenize_go` instrumented with the index of each token's first
character (the lexer's index right after the whitespace skip). -/
def tokenize_pos_go : Nat → Lexer → Option (List (Token × TokenInfo × Nat))
  | 0, _ => none
  | n+1, l =>
    match l.consume (n+1) with
    | LexStep.eof => some []
    | LexStep.spin => none
    | LexStep.tok t info l' =>
      match tokenize_pos_go n l' with
      | none => none
      | some rest => some ((t, info, (l.skip_whitespace).index) :: rest)

/-- End-to-end pipeline: `tokenize`, then `Parser::from_tokens`. -/
def parse (s : String) (fuel : Nat) : Option (Except ParseError Parser) :=
  (tokenize s fuel).map Parser.from_tokens

/-- Positional bookkeeping a lexer state should satisfy: `line` counts the
newlines before `index` and `index - last_line_index` is the offset from
the start of the current line. -/
def lexPos (l : Lexer) : Prop :=
  l.line = specLine l.source l.index
    ∧ l.index - l.last_line_index = specCol l.source l.index
    ∧ l.last_line_index ≤ l.index

/-- The sample forest `{A: {B: {Inner}, C}}` of the controlled-traversal
claim. -/
def thingInner : Thing := Thing.mk "Inner" [] []

def thingC : Thing := Thing.mk "C" [] []

def thingB : Thing := Thing.mk "B" [] [("Inner", thingInner)]

def thingA : Thing := Thing.mk "A" [] [("B", thingB), ("C", thingC)]

/-! ## Basic lemmas about the lexer state -/

theorem peek_eq (l : Lexer) : l.peek = (l.source.get? l.index).getD '\x00' := by
  simp only [Lexer.peek, Lexer.peek_offset, Int.add_zero]
  rw [if_neg (by omega)]
  simp only [Int.toNat_natCast]
  cases l.source.get? l.index <;> rfl

theorem peek_some {l : Lexer} (h : l.peek ≠ '\x00') :
    l.source.get? l.index = some l.peek := by
  rw [peek_eq] at h ⊢
  cases hg : l.source.get? l.index with
  | none => rw [hg] at h; exact absurd rfl h
  | some c => rfl

/-! ## Claim C8 -/

/-- Claim C8: a string-typed prop built from the literal `"hello world"`
(with quotes) has value `String "hello world"`; built from the unquoted
literal `hello` it keeps `hello` unchanged; and `strip_quotes` is the
identity (hence idempotent) on any input that neither starts nor ends with
a double-quote character. -/
theorem c8_string_roundtrip :
    (∀ name : String,
      FdlProp.string_from_literal name "\"hello world\"" = ⟨name, PropValue.String "hello world"⟩)
    ∧ (∀ name : String,
      FdlProp.string_from_literal name "hello" = ⟨name, PropValue.String "hello"⟩)
    ∧ (∀ l : List Char, l.head? ≠ some '"' → l.getLast? ≠ some '"' → strip_quotes l = l) := by
  refine ⟨fun name => rfl, fun name => rfl, fun l h1 h2 => ?_⟩
  simp only [strip_quotes]
  rw [if_neg h2, if_neg h1]

/-- Witness for the hypothesis-bearing part of C8's theorem. -/
theorem c8_witness : strip_quotes ['h', 'i'] = ['h', 'i'] :=
  c8_string_roundtrip.2.2 ['h', 'i'] (by decide) (by decide)

/-! ## Claim C4 -/

/-- Claim C4: in a controlled walk, `BreakSubtree` (StopSubtree) at a node
skips all of the node's descendants (the visit log of that subtree is just
the node) while remaining siblings are still walked; `Break` (StopAll) at a
node aborts the whole walk (a child returning `Break` makes the sibling
loop stop and propagate). On the forest `{A: {B: {Inner}, C}}`, a visitor
returning StopSubtree at `B` visits exactly `A, B, C` and never `Inner`,
and one returning StopAll at `B` visits exactly `A, B`. -/
theorem c4_controlled_traversal :
    (∀ (f : Thing → Option Thing → Nat → ForeachCtrl) (t : Thing) (parent : Option Thing)
        (depth : Nat),
      f t parent depth = ForeachCtrl.BreakSubtree →
      foreach_ctrl_helper f t parent depth = (ForeachCtrl.BreakSubtree, [t]))
    ∧ (∀ (f : Thing → Option Thing → Nat → ForeachCtrl) (parent : Thing) (nm : String)
        (c : Thing) (rest : List (String × Thing)) (depth : Nat) (ctl : ForeachCtrl)
        (log : List Thing),
      foreach_ctrl_helper f c (some parent) (depth + 1) = (ctl, log) →
      ctl ≠ ForeachCtrl.Break →
      foreach_ctrl_children f parent ((nm, c) :: rest) depth =
        ((foreach_ctrl_children f parent rest depth).1,
          log ++ (foreach_ctrl_children f parent rest depth).2))
    ∧ (∀ (f : Thing → Option Thing → Nat → ForeachCtrl) (parent : Thing) (nm : String)
        (c : Thing) (rest : List (String × Thing)) (depth : Nat) (log : List Thing),
      foreach_ctrl_helper f c (some parent) (depth + 1) = (ForeachCtrl.Break, log) →
      foreach_ctrl_children f parent ((nm, c) :: rest) depth = (ForeachCtrl.Break, log))
    ∧ ((thingA.foreach_ctrl fun t _ _ =>
          if t.name = "B" then ForeachCtrl.BreakSubtree else ForeachCtrl.Continue).2.map Thing.name
          = ["A", "B", "C"]
        ∧ "Inner" ∉ ((thingA.foreach_ctrl fun t _ _ =>
          if t.name = "B" then ForeachCtrl.BreakSubtree else ForeachCtrl.Continue).2.map Thing.name))
    ∧ (thingA.foreach_ctrl fun t _ _ =>
          if t.name = "B" then ForeachCtrl.Break else ForeachCtrl.Continue).2.map Thing.name
        = ["A", "B"] := by
  refine ⟨?_, ?_, ?_, ?_, ?_⟩
  · intro f t parent depth h
    obtain ⟨n, ps, ts⟩ := t
    rw [foreach_ctrl_helper.eq_1, h]
  · intro f parent nm c rest depth ctl log h hne
    rw [foreach_ctrl_children.eq_2, h]
    cases ctl
    · exact absurd rfl hne
    · rfl
    · rfl
  · intro f parent nm c rest depth log h
    rw [foreach_ctrl_children.eq_2, h]
  · constructor
    · simp [Thing.foreach_ctrl, foreach_ctrl_helper, foreach_ctrl_children, Thing.name,
        thingA, thingB, thingC, thingInner]
    · simp [Thing.foreach_ctrl, foreach_ctrl_helper, foreach_ctrl_children, Thing.name,
        thingA, thingB, thingC, thingInner]
  · simp [Thing.foreach_ctrl, foreach_ctrl_helper, foreach_ctrl_children, Thing.name,
      thingA, thingB, thingC, thingInner]

/-- Witness for the hypothesis-bearing parts of C4's theorem. -/
theorem c4_witness :
    foreach_ctrl_helper (fun _ _ _ => ForeachCtrl.BreakSubtree) thingA none 0
      = (ForeachCtrl.BreakSubtree, [thingA]) :=
  c4_controlled_traversal.1 (fun _ _ _ => ForeachCtrl.BreakSubtree) thingA none 0 rfl

/-! ## Claim C6 -/

/-- Claim C6: when the token stream is exhausted with a non-empty stack of
open entities, the parse fails with a `ParseError` at the sentinel position
`(0, 0)` whose message names the innermost still-open entity (the top of
the stack) as missing its closing brace; concretely, `thing "Name" {`
fails with exactly that error. -/
theorem c6_end_of_stream :
    (∀ (p : Parser) (t : Thing) (rest : List Thing), p.thing_stack = t :: rest →
      Parser.from_tokens_loop p [] =
        Except.error ⟨⟨0, 0⟩, "Token `" ++ t.name ++ "` is missing a closing brace `\x7d`"⟩)
    ∧ parse "thing \"Name\" \x7b" 20 =
        some (Except.error ⟨⟨0, 0⟩, "Token `Name` is missing a closing brace `\x7d`"⟩) := by
  constructor
  · intro p t rest h
    rw [Parser.from_tokens_loop]
    rw [h]
  · have ht : tokenize "thing \"Name\" \x7b" 20 =
        some [(⟨TokenKind.Word, "thing"⟩, ⟨0, 0⟩), (⟨TokenKind.String, "\"Name\""⟩, ⟨0, 6⟩),
              (⟨TokenKind.Symbol, "\x7b"⟩, ⟨0, 13⟩)] := by decide
    simp [parse, ht, Parser.from_tokens, Parser.from_tokens_loop, Parser.parse_token,
      Parser.parse_thing, Parser.add_thing, Parser.new, Thing.new, Thing.name, strip_quotes]

/-- Witness for the hypothesis-bearing part of C6's theorem. -/
theorem c6_witness :
    Parser.from_tokens_loop ⟨[], [Thing.new "N"]⟩ [] =
      Except.error ⟨⟨0, 0⟩, "Token `N` is missing a closing brace `\x7d`"⟩ :=
  c6_end_of_stream.1 ⟨[], [Thing.new "N"]⟩ (Thing.new "N") [] rfl

/-! ## Claim C1 -/

/-- Claim C1 counterexample: the source `x` contains no `thing` keyword,
yet `parse` returns an error ("Unexpected token" at position `(0,0)`), not
an empty forest: the first token of any non-empty no-`thing` token stream
is rejected. -/
theorem c1_counterexample :
    parse "x" 5 = some (Except.error ⟨⟨0, 0⟩, "Unexpected token"⟩) := by
  have ht : tokenize "x" 5 = some [(⟨TokenKind.Word, "x"⟩, ⟨0, 0⟩)] := by decide
  simp [parse, ht, Parser.from_tokens, Parser.from_tokens_loop, Parser.parse_token, Parser.new]

/-- Claim C1, amended: for a token stream with no `thing` keyword token,
parse succeeds with an empty forest exactly when the stream is empty
(e.g. a whitespace-only source); any token at all makes it fail with a
`ParseError` positioned at that first token, and a non-empty forest is
never produced. -/
theorem c1_no_thing_behaviour :
    ∀ ts : List (Token × TokenInfo),
      (∀ q ∈ ts, ¬(q.1.kind = TokenKind.Word ∧ q.1.literal = "thing")) →
      (ts = [] → Parser.from_tokens ts = Except.ok ⟨[], []⟩)
      ∧ (∀ (tk : Token) (ti : TokenInfo) (rest : List (Token × TokenInfo)),
          ts = (tk, ti) :: rest →
          ∃ msg : String, Parser.from_tokens ts = Except.error ⟨ti, msg⟩) := by
  intro ts hts
  constructor
  · rintro rfl
    rw [Parser.from_tokens, Parser.from_tokens_loop]
    rfl
  · intro tk ti rest hts'
    subst hts'
    have hnt := hts ⟨tk, ti⟩ (List.mem_cons_self _ _)
    have herr : ∃ msg : String,
        Parser.parse_token Parser.new tk ti rest = Except.error ⟨ti, msg⟩ := by
      cases hk : tk.kind
      case String => exact ⟨"Unexpected token", by simp [Parser.parse_token, hk]⟩
      case Number => exact ⟨"Unexpected token", by simp [Parser.parse_token, hk]⟩
      case Word =>
        have hlit : ¬(tk.literal = "thing") := fun h => hnt ⟨hk, h⟩
        by_cases hp : tk.literal = "int" ∨ tk.literal = "float" ∨ tk.literal = "bool"
            ∨ tk.literal = "string"
        · exact ⟨"Unexpected prop definition outside of thing", by
            simp only [Parser.parse_token, hk, hlit, hp]
            simp [Parser.parse_prop, Parser.new]⟩
        · exact ⟨"Unexpected token", by
            simp [Parser.parse_token, hk, hlit, hp]⟩
      case Symbol =>
        by_cases hb : tk.literal = "\x7d"
        · exact ⟨"Unexpected symbol: `\x7d`", by
            simp [Parser.parse_token, hk, hb, Parser.new]⟩
        · exact ⟨"Unexpected token", by
            simp [Parser.parse_token, hk, hb]⟩
    rcases herr with ⟨msg, he⟩
    refine ⟨msg, ?_⟩
    rw [Parser.from_tokens, Parser.from_tokens_loop]
    split
    · rename_i e2 heq
      rw [he] at heq
      cases heq
      rfl
    · rename_i p2 it2 heq
      rw [he] at heq
      cases heq

/-- Witness for C1's amended theorem: the error of a no-`thing` stream is
positioned at its first token. -/
theorem c1_witness :
    (∃ msg : String,
      Parser.from_tokens [(⟨TokenKind.Symbol, "!"⟩, ⟨3, 7⟩)] = Except.error ⟨⟨3, 7⟩, msg⟩) :=
  (c1_no_thing_behaviour [(⟨TokenKind.Symbol, "!"⟩, ⟨3, 7⟩)] (by decide)).2
    ⟨TokenKind.Symbol, "!"⟩ ⟨3, 7⟩ [] rfl

/-! ## Claim C2 -/

theorem consume_string_go_stuck :
    ∀ (n : Nat) (i li ll : Nat) (acc : List Char), 1 ≤ i →
      consume_string_go n ⟨"\"abc".data, i, li, ll⟩ acc = none := by
  intro n
  induction n with
  | zero => intro i li ll acc hi; rfl
  | succ n ih =>
    intro i li ll acc hi
    have hp : (Lexer.peek ⟨"\"abc".data, i, li, ll⟩) ≠ '"' := by
      rw [peek_eq]
      rcases i with _ | _ | _ | _ | m
      · omega
      · show ((("\"abc".data).get? 1).getD '\x00') ≠ '"'
        decide
      · show ((("\"abc".data).get? 2).getD '\x00') ≠ '"'
        decide
      · show ((("\"abc".data).get? 3).getD '\x00') ≠ '"'
        decide
      · show ((("\"abc".data).get? (m + 4)).getD '\x00') ≠ '"'
        have hn : ("\"abc".data).get? (m + 4) = none :=
          List.get?_eq_none.mpr (by show 4 ≤ m + 4; omega)
        rw [hn]
        decide
    simp only [consume_string_go]
    rw [if_pos (by simp [hp])]
    exact ih (i + 1) li ll _ (by omega)

theorem consume_string_eq_none {fuel : Nat} {l : Lexer}
    (h : consume_string_go fuel l.advance [l.peek] = none) :
    l.consume_string fuel = none := by
  rw [Lexer.consume_string, h]

theorem consume_eq_spin {fuel : Nat} {l : Lexer} (hw : l.skip_whitespace = l)
    (h3 : l.peek = '"') (h4 : l.consume_string fuel = none) :
    l.consume fuel = LexStep.spin := by
  simp only [Lexer.consume, hw, h3, h4]
  rw [if_neg (by decide), if_neg (by decide)]
  exact if_pos trivial

/-- Claim C2 is refuted by the code: on the source `"abc` (an opening quote
with no closing quote), `consume_string`'s loop condition still holds at
the end-of-input sentinel, so the lexer never terminates: the fuelled model
fails to produce a token sequence no matter how much fuel it is given. -/
theorem c2_unterminated_string_diverges : ∀ n : Nat, tokenize "\"abc" n = none := by
  intro n
  cases n with
  | zero => rfl
  | succ n =>
    have hskip : (Lexer.new "\"abc".data).skip_whitespace = Lexer.new "\"abc".data := by decide
    have hadv : (Lexer.new "\"abc".data).advance = ⟨"\"abc".data, 1, 0, 0⟩ := rfl
    have hpk : [(Lexer.new "\"abc".data).peek] = ['"'] := rfl
    have hstr : (Lexer.new "\"abc".data).consume_string (n + 1) = none := by
      apply consume_string_eq_none
      rw [hadv, hpk]
      exact consume_string_go_stuck (n + 1) 1 0 0 _ (by omega)
    have hcons : (Lexer.new "\"abc".data).consume (n + 1) = LexStep.spin :=
      consume_eq_spin hskip rfl hstr
    show tokenize_go (n + 1) (Lexer.new "\"abc".data) = none
    rw [tokenize_go, hcons]

/-! ## Claim C7 -/

theorem peek_offset_nat (l : Lexer) (k : Nat) :
    l.peek_offset (k : Int) = (l.source.get? (l.index + k)).getD '\x00' := by
  simp only [Lexer.peek_offset]
  rw [if_neg (by omega)]
  have : ((l.index : Int) + (k : Int)).toNat = l.index + k := by omega
  rw [this]
  cases l.source.get? (l.index + k) <;> rfl

theorem not_ws_of_isDigit {c : Char} (h : c.isDigit = true) : isRustWhitespace c = false := by
  by_contra hw
  simp only [Bool.not_eq_false] at hw
  simp only [isRustWhitespace, Bool.or_eq_true, beq_iff_eq] at hw
  rcases hw with ((((rfl | rfl) | rfl) | rfl) | rfl) | rfl <;> exact absurd h (by decide)

theorem skip_whitespace_eq_self {l : Lexer} (h : isRustWhitespace l.peek = false) :
    l.skip_whitespace = l := by
  rw [Lexer.skip_whitespace]
  cases hn : l.source.length - l.index with
  | zero => rfl
  | succ n =>
    simp only [skip_whitespace_go]
    rw [if_neg (by simp [h])]

theorem get_of_peek_ne {l : Lexer} (h : l.peek ≠ '\x00') :
    l.source.get? l.index = some l.peek := peek_some h

theorem consume_number_go_spec :
    ∀ (n : Nat) (l : Lexer) (acc : List Char), n = l.source.length - l.index →
      consume_number_go n l acc =
        (acc ++ numTake (l.source.drop l.index),
          ⟨l.source, l.index + (numTake (l.source.drop l.index)).length,
            l.line, l.last_line_index⟩) := by
  intro n
  induction n with
  | zero =>
    intro l acc h
    have hd : l.source.drop l.index = [] := List.drop_eq_nil_of_le (by omega)
    simp only [consume_number_go, hd, numTake]
    simp
  | succ n ih =>
    intro l acc h
    cases hg : l.source.get? l.index with
    | none =>
      have := List.get?_eq_none.mp hg
      omega
    | some c =>
      have hidx : l.index < l.source.length := by
        by_contra hc
        rw [List.get?_eq_none.mpr (by omega)] at hg
        cases hg
      have hpeek : l.peek = c := by rw [peek_eq, hg]; rfl
      have hdrop : l.source.drop l.index = c :: l.source.drop (l.index + 1) := by
        rw [List.drop_eq_getElem_cons hidx]
        congr 1
        have h3 : some (l.source[l.index]) = some c := by
          rw [← List.getElem?_eq_getElem hidx, ← List.get?_eq_getElem?]
          exact hg
        exact Option.some.inj h3
      have hnext : ((l.source.get? (l.index + 1)).getD '\x00').isDigit
          = (match l.source.drop (l.index + 1) with
              | d :: _ => d.isDigit | [] => false) := by
        have hh : (l.source.drop (l.index + 1)).head? = l.source.get? (l.index + 1) := by
          rw [List.head?_drop, List.get?_eq_getElem?]
        cases hd2 : l.source.drop (l.index + 1) with
        | nil => rw [hd2] at hh; rw [← hh]; rfl
        | cons d tl => rw [hd2] at hh; rw [← hh]; rfl
      have hoff : l.peek_offset 1 = (l.source.get? (l.index + 1)).getD '\x00' := by
        have := peek_offset_nat l 1
        simpa using this
      have hadv : l.advance = ⟨l.source, l.index + 1, l.line, l.last_line_index⟩ := rfl
      simp only [consume_number_go, hpeek, hoff, hdrop, numTake, hnext]
      by_cases h1 : c.isDigit = true
      · rw [if_pos (by simp [h1]), if_pos h1, hadv]
        rw [ih ⟨l.source, l.index + 1, l.line, l.last_line_index⟩ (acc ++ [c]) (by simp; omega)]
        congr 1
        · simp
        · congr 1
          simp
          omega
      · by_cases h2 : (c == '.' && (match l.source.drop (l.index + 1) with
            | d :: _ => d.isDigit | [] => false)) = true
        · rw [if_pos (by simp only [Bool.or_eq_true]; exact Or.inr h2), if_neg h1, if_pos h2, hadv]
          rw [ih ⟨l.source, l.index + 1, l.line, l.last_line_index⟩ (acc ++ [c]) (by simp; omega)]
          congr 1
          · simp
          · congr 1
            simp
            omega
        · rw [if_neg (by simp only [Bool.or_eq_true, not_or]; exact ⟨h1, h2⟩),
            if_neg h1, if_neg h2]
          simp

/-- Claim C7: at a source position whose character is a digit, the lexer
produces a `Number` token whose literal is the maximal run accepted by the
number loop: digits, plus a `.` only when the character immediately after
the `.` is a digit (`numTake`); in particular `123.` tokenizes as
Number "123" then Symbol ".", and `123..11` starts with Number "123". -/
theorem c7_number_tokenization :
    (∀ (fuel : Nat) (l : Lexer), (l.peek).isDigit = true →
      l.consume fuel = LexStep.tok
        ⟨TokenKind.Number, String.mk (numTake (l.source.drop l.index))⟩
        ⟨l.line, l.index - l.last_line_index⟩
        ⟨l.source, l.index + (numTake (l.source.drop l.index)).length,
          l.line, l.last_line_index⟩)
    ∧ tokenize "123." 20 =
        some [(⟨TokenKind.Number, "123"⟩, ⟨0, 0⟩), (⟨TokenKind.Symbol, "."⟩, ⟨0, 3⟩)]
    ∧ tokenize "123..11" 20 =
        some [(⟨TokenKind.Number, "123"⟩, ⟨0, 0⟩), (⟨TokenKind.Symbol, "."⟩, ⟨0, 3⟩),
              (⟨TokenKind.Symbol, "."⟩, ⟨0, 4⟩), (⟨TokenKind.Number, "11"⟩, ⟨0, 5⟩)] := by
  refine ⟨?_, by decide, by decide⟩
  intro fuel l hdig
  have hws : l.skip_whitespace = l := skip_whitespace_eq_self (not_ws_of_isDigit hdig)
  simp only [Lexer.consume, hws, hdig]
  rw [if_pos trivial]
  rw [Lexer.consume_number]
  rw [consume_number_go_spec (l.source.length - l.index) l [] rfl]
  simp

/-- Witness for the hypothesis-bearing part of C7's theorem. -/
theorem c7_witness :
    Lexer.consume 5 (Lexer.new ['7']) =
      LexStep.tok ⟨TokenKind.Number, "7"⟩ ⟨0, 0⟩ ⟨['7'], 1, 0, 0⟩ :=
  c7_number_tokenization.1 5 (Lexer.new ['7']) (by decide)

/-! ## Parser invariants (claims C5 and C9) -/

theorem noErrPropsList_eq_all (l : List (String × Thing)) :
    Thing.noErrPropsList l = l.all (fun kc => Thing.noErrProps kc.2) := by
  induction l with
  | nil => rfl
  | cons kc rest ih =>
    obtain ⟨k, c⟩ := kc
    rw [Thing.noErrPropsList, ih]
    rfl

theorem keysOkList_eq_all (l : List (String × Thing)) :
    Thing.keysOkList l = l.all (fun kc => (kc.1 == kc.2.name) && Thing.keysOk kc.2) := by
  induction l with
  | nil => rfl
  | cons kc rest ih =>
    obtain ⟨k, c⟩ := kc
    rw [Thing.keysOkList, ih]
    rfl

theorem insertKV_all {α : Type} (Q : String × α → Bool) (k : String) (v : α) :
    ∀ l : List (String × α), l.all Q = true → Q (k, v) = true →
      ((insertKV k v l).all Q) = true := by
  intro l
  induction l with
  | nil => intro _ hv; simpa [insertKV] using hv
  | cons kv rest ih =>
    obtain ⟨k', v'⟩ := kv
    intro hl hv
    simp only [List.all_cons, Bool.and_eq_true] at hl
    rw [insertKV]
    by_cases hk : k' = k
    · rw [if_pos hk]
      simp only [List.all_cons, Bool.and_eq_true]
      exact ⟨hv, hl.2⟩
    · rw [if_neg hk]
      simp only [List.all_cons, Bool.and_eq_true]
      exact ⟨hl.1, ih hl.2 hv⟩

theorem noErrProps_add_prop {t : Thing} {p : FdlProp} (ht : t.noErrProps = true)
    (hp : p.value ≠ PropValue.Err) : (t.add_prop p).noErrProps = true := by
  obtain ⟨n, ps, ts⟩ := t
  rw [Thing.add_prop, Thing.noErrProps] at *
  simp only [Bool.and_eq_true] at ht ⊢
  refine ⟨?_, ht.2⟩
  exact insertKV_all _ _ _ ps ht.1 (by simpa using hp)

theorem noErrProps_add_thing {t c : Thing} (ht : t.noErrProps = true)
    (hc : c.noErrProps = true) : ((t.add_thing c).2).noErrProps = true := by
  obtain ⟨n, ps, ts⟩ := t
  rw [Thing.add_thing] at *
  rw [Thing.noErrProps] at ht ⊢
  simp only [Bool.and_eq_true] at ht ⊢
  refine ⟨ht.1, ?_⟩
  rw [noErrPropsList_eq_all] at ht ⊢
  exact insertKV_all _ _ _ ts ht.2 hc

theorem keysOk_add_prop (t : Thing) (p : FdlProp) : (t.add_prop p).keysOk = t.keysOk := by
  obtain ⟨n, ps, ts⟩ := t
  rw [Thing.add_prop, Thing.keysOk, Thing.keysOk]

theorem keysOk_add_thing {t c : Thing} (ht : t.keysOk = true) (hc : c.keysOk = true) :
    ((t.add_thing c).2).keysOk = true := by
  obtain ⟨n, ps, ts⟩ := t
  rw [Thing.add_thing] at *
  rw [Thing.keysOk] at ht ⊢
  rw [keysOkList_eq_all] at ht ⊢
  exact insertKV_all _ _ _ ts ht (by simp [hc])

/-- Every successful `parse_token` step changes the parser in one of four
shapes: push a fresh entity, attach a checked prop to the innermost open
entity, attach a closed entity to its parent, or move a closed root into
the forest under its own name. -/
theorem parse_token_ok_cases {p p' : Parser} {tok : Token} {info : TokenInfo}
    {iter iter' : List (Token × TokenInfo)}
    (h : p.parse_token tok info iter = Except.ok (p', iter')) :
    (∃ nm, p' = ⟨p.things, Thing.new nm :: p.thing_stack⟩)
    ∨ (∃ top rest prop, p.thing_stack = top :: rest ∧ (prop : FdlProp).value ≠ PropValue.Err
        ∧ p' = ⟨p.things, top.add_prop prop :: rest⟩)
    ∨ (∃ t parent rest2, p.thing_stack = t :: parent :: rest2
        ∧ p' = ⟨p.things, (parent.add_thing t).2 :: rest2⟩)
    ∨ (∃ t, p.thing_stack = [t] ∧ p' = ⟨insertKV t.name t p.things, []⟩) := by
  cases hk : tok.kind <;> simp only [Parser.parse_token, hk] at h
  case String => cases h
  case Number => cases h
  case Word =>
    split_ifs at h
    · left
      rcases iter with _ | ⟨⟨t1, i1⟩, _ | ⟨⟨t2, i2⟩, iter2⟩⟩ <;>
        simp only [Parser.parse_thing] at h
      · cases h
      · split at h <;> cases h
      · split at h
        · cases h
        · split at h
          · cases h
          · simp only [Except.ok.injEq, Prod.mk.injEq] at h
            obtain ⟨rfl, -⟩ := h
            exact ⟨_, rfl⟩
    · right; left
      rcases hs : p.thing_stack with _ | ⟨top, stack_rest⟩ <;>
        rcases iter with _ | ⟨⟨t1, i1⟩, _ | ⟨⟨t2, i2⟩, _ | ⟨⟨t3, i3⟩, iter3⟩⟩⟩ <;>
        simp only [Parser.parse_prop, hs] at h
      all_goals try cases h
      all_goals split_ifs at h
      all_goals try cases h
      all_goals try (split at h <;> try cases h)
      all_goals try (split at h <;> try cases h)
      all_goals try (rename_i prop heq xv hne; exact ⟨top, stack_rest, prop, rfl, fun hv => hne hv, rfl⟩)
      all_goals exact ⟨top, stack_rest, FdlProp.string_from_literal t1.literal t3.literal, rfl,
        (by simp [FdlProp.string_from_literal]), rfl⟩
  case Symbol =>
    split_ifs at h
    split at h
    · cases h
    · split at h <;>
        (simp only [Except.ok.injEq, Prod.mk.injEq] at h; obtain ⟨rfl, -⟩ := h)
      · rename_i xs thing rest parent rest2 heq
        exact Or.inr (Or.inr (Or.inl ⟨thing, parent, rest2, heq, rfl⟩))
      · rename_i xs thing rest heq
        exact Or.inr (Or.inr (Or.inr ⟨thing, heq, rfl⟩))

/-- A parser property preserved by every successful `parse_token` step is
preserved by the whole `from_tokens` loop. -/
theorem from_tokens_loop_preserve (P : Parser → Prop)
    (hstep : ∀ (p : Parser) (tok : Token) (info : TokenInfo)
        (iter iter' : List (Token × TokenInfo)) (p' : Parser),
      p.parse_token tok info iter = Except.ok (p', iter') → P p → P p') :
    ∀ (n : Nat) (toks : List (Token × TokenInfo)) (p pf : Parser), toks.length ≤ n →
      P p → Parser.from_tokens_loop p toks = Except.ok pf → P pf := by
  intro n
  induction n with
  | zero =>
    intro toks p pf hlen hp h
    rcases toks with _ | ⟨⟨tk, ti⟩, rest⟩
    · rw [Parser.from_tokens_loop] at h
      split at h
      · cases h; exact hp
      · cases h
    · simp at hlen
  | succ n ih =>
    intro toks p pf hlen hp h
    rcases toks with _ | ⟨⟨tk, ti⟩, rest⟩
    · rw [Parser.from_tokens_loop] at h
      split at h
      · cases h; exact hp
      · cases h
    · rw [Parser.from_tokens_loop] at h
      split at h
      · cases h
      · rename_i p2 iter2 heq
        exact ih iter2 p2 pf (le_trans (parse_token_iter_le heq) (by simpa using hlen))
          (hstep p tk ti rest iter2 p2 heq hp) h

/-! ## Claim C5 -/

/-- Claim C5: an `int` prop declaration whose value literal does not parse
as an `i32` makes the parse fail with a fatal `ParseError` positioned at
the value token; `int x = true` fails at the position of `true` (0, 20);
and no parser that `from_tokens` returns successfully ever stores an
`Err`-valued prop anywhere in its forest. -/
theorem c5_type_mismatch :
    (∀ (p : Parser) (tok : Token) (info : TokenInfo) (tname : Token) (tninfo : TokenInfo)
        (teq : Token) (teinfo : TokenInfo) (tval : Token) (tvinfo : TokenInfo)
        (iter : List (Token × TokenInfo)) (top : Thing) (stack_rest : List Thing),
      p.thing_stack = top :: stack_rest →
      tname.kind = TokenKind.Word →
      teq.kind = TokenKind.Symbol → teq.literal = "=" →
      ((tok.literal = "int"
          ∧ (FdlProp.int_from_literal tname.literal tval.literal).value = PropValue.Err)
        ∨ (tok.literal = "float"
          ∧ (FdlProp.float_from_literal tname.literal tval.literal).value = PropValue.Err)
        ∨ (tok.literal = "bool"
          ∧ (FdlProp.bool_from_literal tname.literal tval.literal).value = PropValue.Err)
        ∨ (tok.literal = "string"
          ∧ (FdlProp.string_from_literal tname.literal tval.literal).value = PropValue.Err)) →
      p.parse_prop tok info ((tname, tninfo) :: (teq, teinfo) :: (tval, tvinfo) :: iter)
        = Except.error ⟨tvinfo, "Unable to parse prop value matching declared prop type"⟩)
    ∧ parse "thing \"T\" \x7b int x = true \x7d" 40
        = some (Except.error ⟨⟨0, 20⟩, "Unable to parse prop value matching declared prop type"⟩)
    ∧ (∀ (toks : List (Token × TokenInfo)) (pf : Parser),
        Parser.from_tokens toks = Except.ok pf → Thing.noErrPropsList pf.things = true) := by
  refine ⟨?_, ?_, ?_⟩
  · intro p tok info tname tninfo teq teinfo tval tvinfo iter top stack_rest
      hstk hnk hek hel hcase
    simp only [Parser.parse_prop, hstk]
    rw [if_neg (by simp [hnk]), if_neg (by simp [hek, hel])]
    rcases hcase with ⟨hlit, hv⟩ | ⟨hlit, hv⟩ | ⟨hlit, hv⟩ | ⟨hlit, hv⟩
    · rw [if_pos hlit]
      simp only [hv]
    · rw [if_neg (by rw [hlit]; decide), if_pos hlit]
      simp only [hv]
    · rw [if_neg (by rw [hlit]; decide), if_neg (by rw [hlit]; decide), if_pos hlit]
      simp only [hv]
    · rw [if_neg (by rw [hlit]; decide), if_neg (by rw [hlit]; decide),
        if_neg (by rw [hlit]; decide), if_pos hlit]
      simp only [hv]
  · have ht : tokenize "thing \"T\" \x7b int x = true \x7d" 40 =
        some [(⟨TokenKind.Word, "thing"⟩, ⟨0, 0⟩), (⟨TokenKind.String, "\"T\""⟩, ⟨0, 6⟩),
              (⟨TokenKind.Symbol, "\x7b"⟩, ⟨0, 10⟩), (⟨TokenKind.Word, "int"⟩, ⟨0, 12⟩),
              (⟨TokenKind.Word, "x"⟩, ⟨0, 16⟩), (⟨TokenKind.Symbol, "="⟩, ⟨0, 18⟩),
              (⟨TokenKind.Word, "true"⟩, ⟨0, 20⟩), (⟨TokenKind.Symbol, "\x7d"⟩, ⟨0, 25⟩)] := by
      decide
    have hint : FdlProp.int_from_literal "x" "true" = ⟨"x", PropValue.Err⟩ := by decide
    simp [parse, ht, Parser.from_tokens, Parser.from_tokens_loop, Parser.parse_token,
      Parser.parse_thing, Parser.parse_prop, Parser.add_thing, Parser.new, Thing.new,
      strip_quotes, hint]
    rw [hint]
  · intro toks pf h
    have hinv : (fun q : Parser =>
        (Thing.noErrPropsList q.things && q.thing_stack.all Thing.noErrProps) = true) pf := by
      apply from_tokens_loop_preserve _ ?_ toks.length toks Parser.new pf (le_refl _) (by rfl) h
      intro p tok info iter iter' p' hok hp
      simp only [Bool.and_eq_true] at hp
      rcases parse_token_ok_cases hok with ⟨nm, rfl⟩ | ⟨top, rest, prop, hstk, hne, rfl⟩
        | ⟨t, parent, rest2, hstk, rfl⟩ | ⟨t, hstk, rfl⟩
      · simp only [Bool.and_eq_true]
        refine ⟨hp.1, ?_⟩
        simp only [List.all_cons, Bool.and_eq_true]
        exact ⟨by rw [Thing.new, Thing.noErrProps]; rfl, hp.2⟩
      · simp only [Bool.and_eq_true]
        refine ⟨hp.1, ?_⟩
        have hstack := hp.2
        rw [hstk] at hstack
        simp only [List.all_cons, Bool.and_eq_true] at hstack
        simp only [List.all_cons, Bool.and_eq_true]
        exact ⟨noErrProps_add_prop hstack.1 hne, hstack.2⟩
      · simp only [Bool.and_eq_true]
        refine ⟨hp.1, ?_⟩
        have hstack := hp.2
        rw [hstk] at hstack
        simp only [List.all_cons, Bool.and_eq_true] at hstack
        simp only [List.all_cons, Bool.and_eq_true]
        exact ⟨noErrProps_add_thing hstack.2.1 hstack.1, hstack.2.2⟩
      · simp only [Bool.and_eq_true]
        have hstack := hp.2
        rw [hstk] at hstack
        simp only [List.all_cons, Bool.and_eq_true] at hstack
        refine ⟨?_, by simp⟩
        rw [noErrPropsList_eq_all] at hp ⊢
        exact insertKV_all _ _ _ _ hp.1 hstack.1
    simp only [Bool.and_eq_true] at hinv
    exact hinv.1

/-- Witness for the hypothesis-bearing parts of C5's theorem. -/
theorem c5_witness :
    Parser.parse_prop ⟨[], [Thing.new "T"]⟩ ⟨TokenKind.Word, "int"⟩ ⟨0, 14⟩
      [(⟨TokenKind.Word, "x"⟩, ⟨0, 18⟩), (⟨TokenKind.Symbol, "="⟩, ⟨0, 20⟩),
       (⟨TokenKind.Word, "true"⟩, ⟨0, 22⟩)]
      = Except.error ⟨⟨0, 22⟩, "Unable to parse prop value matching declared prop type"⟩
    ∧ Parser.parse_prop ⟨[], [Thing.new "T"]⟩ ⟨TokenKind.Word, "bool"⟩ ⟨0, 14⟩
      [(⟨TokenKind.Word, "y"⟩, ⟨0, 19⟩), (⟨TokenKind.Symbol, "="⟩, ⟨0, 21⟩),
       (⟨TokenKind.Number, "7"⟩, ⟨0, 23⟩)]
      = Except.error ⟨⟨0, 23⟩, "Unable to parse prop value matching declared prop type"⟩ :=
  ⟨c5_type_mismatch.1 ⟨[], [Thing.new "T"]⟩ ⟨TokenKind.Word, "int"⟩ ⟨0, 14⟩
    ⟨TokenKind.Word, "x"⟩ ⟨0, 18⟩ ⟨TokenKind.Symbol, "="⟩ ⟨0, 20⟩
    ⟨TokenKind.Word, "true"⟩ ⟨0, 22⟩ [] (Thing.new "T") []
    rfl rfl rfl rfl (Or.inl ⟨rfl, by decide⟩),
   c5_type_mismatch.1 ⟨[], [Thing.new "T"]⟩ ⟨TokenKind.Word, "bool"⟩ ⟨0, 14⟩
    ⟨TokenKind.Word, "y"⟩ ⟨0, 19⟩ ⟨TokenKind.Symbol, "="⟩ ⟨0, 21⟩
    ⟨TokenKind.Number, "7"⟩ ⟨0, 23⟩ [] (Thing.new "T") []
    rfl rfl rfl rfl (Or.inr (Or.inr (Or.inl ⟨rfl, by decide⟩)))⟩

/-! ## Claim C9 -/

/-- Claim C9: in every parser returned successfully by `from_tokens`, each
key of the forest map equals the `name` of the root entity stored under it
and the key/name invariant holds recursively in every child map; moreover
`add_thing` itself preserves the invariant (it keys the child by its own
name). -/
theorem c9_key_name_invariant :
    (∀ (toks : List (Token × TokenInfo)) (pf : Parser),
      Parser.from_tokens toks = Except.ok pf →
      pf.things.all (fun kt => (kt.1 == kt.2.name) && Thing.keysOk kt.2) = true)
    ∧ (∀ t c : Thing, t.keysOk = true → c.keysOk = true →
        ((t.add_thing c).2).keysOk = true) := by
  constructor
  · intro toks pf h
    have hinv : (fun q : Parser =>
        (q.things.all (fun kt => (kt.1 == kt.2.name) && Thing.keysOk kt.2)
          && q.thing_stack.all Thing.keysOk) = true) pf := by
      apply from_tokens_loop_preserve _ ?_ toks.length toks Parser.new pf (le_refl _) (by rfl) h
      intro p tok info iter iter' p' hok hp
      simp only [Bool.and_eq_true] at hp
      rcases parse_token_ok_cases hok with ⟨nm, rfl⟩ | ⟨top, rest, prop, hstk, hne, rfl⟩
        | ⟨t, parent, rest2, hstk, rfl⟩ | ⟨t, hstk, rfl⟩
      · simp only [Bool.and_eq_true]
        refine ⟨hp.1, ?_⟩
        simp only [List.all_cons, Bool.and_eq_true]
        exact ⟨by rw [Thing.new, Thing.keysOk]; rfl, hp.2⟩
      · simp only [Bool.and_eq_true]
        refine ⟨hp.1, ?_⟩
        have hstack := hp.2
        rw [hstk] at hstack
        simp only [List.all_cons, Bool.and_eq_true] at hstack
        simp only [List.all_cons, Bool.and_eq_true]
        exact ⟨by rw [keysOk_add_prop]; exact hstack.1, hstack.2⟩
      · simp only [Bool.and_eq_true]
        refine ⟨hp.1, ?_⟩
        have hstack := hp.2
        rw [hstk] at hstack
        simp only [List.all_cons, Bool.and_eq_true] at hstack
        simp only [List.all_cons, Bool.and_eq_true]
        exact ⟨keysOk_add_thing hstack.2.1 hstack.1, hstack.2.2⟩
      · simp only [Bool.and_eq_true]
        have hstack := hp.2
        rw [hstk] at hstack
        simp only [List.all_cons, Bool.and_eq_true] at hstack
        refine ⟨?_, by simp⟩
        exact insertKV_all _ _ _ _ hp.1 (by simp [hstack.1])
    simp only [Bool.and_eq_true] at hinv
    exact hinv.1
  · intro t c ht hc
    exact keysOk_add_thing ht hc

/-- Witness for the hypothesis-bearing parts of C9's theorem. -/
theorem c9_witness :
    (((Thing.new "P").add_thing (Thing.new "C")).2).keysOk = true :=
  c9_key_name_invariant.2 (Thing.new "P") (Thing.new "C")
    (by rw [Thing.new, Thing.keysOk]; rfl) (by rw [Thing.new, Thing.keysOk]; rfl)

/-! ## Claim C3: position bookkeeping -/

theorem specLine_succ {s : List Char} {i : Nat} {c : Char} (h : s.get? i = some c) :
    specLine s (i + 1) = specLine s i + (if c = '\n' then 1 else 0) := by
  have ht : s.take (i + 1) = s.take i ++ [c] := by
    rw [List.take_succ]
    rw [List.get?_eq_getElem?] at h
    rw [h]
    rfl
  rw [specLine, specLine, ht, List.count_append]
  by_cases hc : c = '\n'
  · rw [if_pos hc, hc]
    rfl
  · rw [if_neg hc]
    have : List.count '\n' [c] = 0 := by
      simp [List.count_singleton]
      exact hc
    rw [this]

theorem specCol_succ {s : List Char} {i : Nat} {c : Char} (h : s.get? i = some c) :
    specCol s (i + 1) = if c = '\n' then 0 else specCol s i + 1 := by
  have ht : s.take (i + 1) = s.take i ++ [c] := by
    rw [List.take_succ]
    rw [List.get?_eq_getElem?] at h
    rw [h]
    rfl
  rw [specCol, specCol, ht, List.reverse_append]
  by_cases hc : c = '\n'
  · rw [if_pos hc, hc]
    rfl
  · rw [if_neg hc]
    have : ([c].reverse ++ (s.take i).reverse).takeWhile (fun x => x != '\n')
        = c :: ((s.take i).reverse.takeWhile (fun x => x != '\n')) := by
      simp only [List.reverse_singleton, List.singleton_append, List.takeWhile_cons]
      rw [if_pos (by simpa using hc)]
    rw [this]
    rfl

theorem lexPos_advance_of_ne {l : Lexer} {c : Char} (hp : lexPos l)
    (h : l.source.get? l.index = some c) (hc : c ≠ '\n') :
    lexPos ⟨l.source, l.index + 1, l.line, l.last_line_index⟩ := by
  obtain ⟨h1, h2, h3⟩ := hp
  refine ⟨?_, ?_, by simp; omega⟩
  · simp only
    rw [specLine_succ h, if_neg hc, h1]
    omega
  · simp only
    rw [specCol_succ h, if_neg hc, ← h2]
    omega

theorem lexPos_newline {l : Lexer} (hp : lexPos l)
    (h : l.source.get? l.index = some '\n') :
    lexPos ⟨l.source, l.index + 1, l.line + 1, l.index + 1⟩ := by
  obtain ⟨h1, h2, h3⟩ := hp
  refine ⟨?_, ?_, by simp⟩
  · simp only
    rw [specLine_succ h, if_pos rfl, h1]
  · simp only
    rw [specCol_succ h, if_pos rfl]
    omega

theorem lexPos_advanceBy :
    ∀ (k : Nat) (l : Lexer), lexPos l →
      (∀ j, j < k → ∃ c, l.source.get? (l.index + j) = some c ∧ c ≠ '\n') →
      lexPos ⟨l.source, l.index + k, l.line, l.last_line_index⟩ := by
  intro k
  induction k with
  | zero =>
    intro l hp _
    exact hp
  | succ k ih =>
    intro l hp hch
    obtain ⟨c, hc, hcn⟩ := hch 0 (by omega)
    simp only [Nat.add_zero] at hc
    have step := lexPos_advance_of_ne hp hc hcn
    have := ih ⟨l.source, l.index + 1, l.line, l.last_line_index⟩ step
      (by intro j hj
          obtain ⟨d, hd, hdn⟩ := hch (j + 1) (by omega)
          exact ⟨d, by simpa [Nat.add_assoc, Nat.add_comm 1 j] using hd, hdn⟩)
    simpa [Nat.add_assoc, Nat.add_comm 1 k] using this

theorem takeWhile_get {p : Char → Bool} :
    ∀ (xs : List Char) (j : Nat) (c : Char),
      (xs.takeWhile p).get? j = some c → xs.get? j = some c ∧ p c = true := by
  intro xs
  induction xs with
  | nil => intro j c h; cases h
  | cons a tl ih =>
    intro j c h
    rw [List.takeWhile_cons] at h
    by_cases hp : p a = true
    · rw [if_pos hp] at h
      cases j with
      | zero =>
        cases h
        exact ⟨rfl, hp⟩
      | succ j =>
        have := ih j c h
        exact ⟨this.1, this.2⟩
    · rw [if_neg hp] at h
      cases h

theorem numTake_get :
    ∀ (xs : List Char) (j : Nat) (c : Char),
      (numTake xs).get? j = some c → xs.get? j = some c ∧ (c.isDigit = true ∨ c = '.') := by
  intro xs
  induction xs with
  | nil => intro j c h; cases h
  | cons a tl ih =>
    intro j c h
    rw [numTake.eq_def] at h
    dsimp only at h
    by_cases h1 : a.isDigit = true
    · rw [if_pos h1] at h
      cases j with
      | zero => cases h; exact ⟨rfl, Or.inl h1⟩
      | succ j => exact ih j c h
    · rw [if_neg h1] at h
      split at h
      · rename_i h2
        cases j with
        | zero =>
          cases h
          simp only [Bool.and_eq_true, beq_iff_eq] at h2
          exact ⟨rfl, Or.inr h2.1⟩
        | succ j => exact ih j c h
      · cases h

theorem ne_of_class {c : Char} :
    (isWordChar c = true → c ≠ '\n' ∧ c ≠ '\x00')
    ∧ (c.isDigit = true ∨ c = '.' → c ≠ '\n' ∧ c ≠ '\x00')
    ∧ (isRustWhitespace c = false → c ≠ '\n')
    ∧ (isRustWhitespace c = true → c ≠ '\x00') := by
  refine ⟨fun h => ⟨?_, ?_⟩, fun h => ⟨?_, ?_⟩, fun h => ?_, fun h => ?_⟩
  · rintro rfl; exact absurd h (by decide)
  · rintro rfl; exact absurd h (by decide)
  · rintro rfl
    rcases h with h | h
    · exact absurd h (by decide)
    · cases h
  · rintro rfl
    rcases h with h | h
    · exact absurd h (by decide)
    · cases h
  · rintro rfl; exact absurd h (by decide)
  · rintro rfl; exact absurd h (by decide)

theorem skip_whitespace_go_props :
    ∀ (n : Nat) (l : Lexer), lexPos l →
      (skip_whitespace_go n l).source = l.source ∧ lexPos (skip_whitespace_go n l) := by
  intro n
  induction n with
  | zero => intro l hp; exact ⟨rfl, hp⟩
  | succ n ih =>
    intro l hp
    rw [skip_whitespace_go]
    by_cases hw : isRustWhitespace l.peek = true
    · rw [if_pos hw]
      have hne : l.peek ≠ '\x00' := (ne_of_class.2.2.2) hw
      have hg : l.source.get? l.index = some l.peek := peek_some hne
      by_cases hn : l.peek = '\n'
      · rw [if_pos hn]
        rw [hn] at hg
        exact ih _ (lexPos_newline hp hg)
      · rw [if_neg hn]
        exact ih _ (lexPos_advance_of_ne hp hg hn)
    · rw [if_neg hw]
      exact ⟨rfl, hp⟩

theorem skip_whitespace_go_source :
    ∀ (n : Nat) (l : Lexer), (skip_whitespace_go n l).source = l.source := by
  intro n
  induction n with
  | zero => intro l; rfl
  | succ n ih =>
    intro l
    rw [skip_whitespace_go]
    by_cases hw : isRustWhitespace l.peek = true
    · rw [if_pos hw]
      by_cases hnl : l.peek = '\n'
      · rw [if_pos hnl]; exact ih _
      · rw [if_neg hnl]; exact ih _
    · rw [if_neg hw]

theorem skip_whitespace_source (l : Lexer) : (l.skip_whitespace).source = l.source := by
  rw [Lexer.skip_whitespace]
  exact skip_whitespace_go_source _ _

theorem skip_whitespace_pos {l : Lexer} (hp : lexPos l) : lexPos l.skip_whitespace := by
  rw [Lexer.skip_whitespace]
  exact (skip_whitespace_go_props _ l hp).2

theorem skip_whitespace_go_not_ws :
    ∀ (n : Nat) (l : Lexer), l.source.length - l.index ≤ n →
      isRustWhitespace (skip_whitespace_go n l).peek = false := by
  intro n
  induction n with
  | zero =>
    intro l hl
    rw [skip_whitespace_go, peek_eq, List.get?_eq_none.mpr (by omega)]
    rfl
  | succ n ih =>
    intro l hl
    rw [skip_whitespace_go]
    by_cases hw : isRustWhitespace l.peek = true
    · rw [if_pos hw]
      have hne : l.peek ≠ '\x00' := (ne_of_class.2.2.2) hw
      have hg : l.source.get? l.index = some l.peek := peek_some hne
      have hlt : l.index < l.source.length := by
        by_contra hc
        rw [List.get?_eq_none.mpr (by omega)] at hg
        cases hg
      by_cases hnl : l.peek = '\n'
      · rw [if_pos hnl]
        exact ih _ (by simp; omega)
      · rw [if_neg hnl]
        exact ih _ (by simp; omega)
    · rw [if_neg hw]
      simpa using hw

theorem skip_whitespace_not_ws (l : Lexer) :
    isRustWhitespace (l.skip_whitespace).peek = false := by
  rw [Lexer.skip_whitespace]
  exact skip_whitespace_go_not_ws _ l (le_refl _)

theorem consume_word_go_spec :
    ∀ (n : Nat) (l : Lexer) (acc : List Char), n = l.source.length - l.index →
      consume_word_go n l acc =
        (acc ++ (l.source.drop l.index).takeWhile isWordChar,
          ⟨l.source, l.index + ((l.source.drop l.index).takeWhile isWordChar).length,
            l.line, l.last_line_index⟩) := by
  intro n
  induction n with
  | zero =>
    intro l acc h
    have hd : l.source.drop l.index = [] := List.drop_eq_nil_of_le (by omega)
    simp only [consume_word_go, hd, List.takeWhile_nil]
    simp
  | succ n ih =>
    intro l acc h
    cases hg : l.source.get? l.index with
    | none =>
      have := List.get?_eq_none.mp hg
      omega
    | some c =>
      have hidx : l.index < l.source.length := by
        by_contra hc
        rw [List.get?_eq_none.mpr (by omega)] at hg
        cases hg
      have hpeek : l.peek = c := by rw [peek_eq, hg]; rfl
      have hdrop : l.source.drop l.index = c :: l.source.drop (l.index + 1) := by
        rw [List.drop_eq_getElem_cons hidx]
        congr 1
        have h3 : some (l.source[l.index]) = some c := by
          rw [← List.getElem?_eq_getElem hidx, ← List.get?_eq_getElem?]
          exact hg
        exact Option.some.inj h3
      have hadv : l.advance = ⟨l.source, l.index + 1, l.line, l.last_line_index⟩ := rfl
      simp only [consume_word_go, hpeek, hdrop, List.takeWhile_cons]
      by_cases h1 : isWordChar c = true
      · rw [if_pos (by simpa [isWordChar] using h1), if_pos h1, hadv]
        rw [ih ⟨l.source, l.index + 1, l.line, l.last_line_index⟩ (acc ++ [c]) (by simp; omega)]
        congr 1
        · simp
        · congr 1
          simp
          omega
      · rw [if_neg (by simpa [isWordChar] using h1), if_neg h1]
        simp

theorem numTake_cons_digit {c : Char} {rest : List Char} (h : c.isDigit = true) :
    numTake (c :: rest) = c :: numTake rest := by
  rw [numTake.eq_def]
  dsimp only
  rw [if_pos h]

/-- Characterization of one `consume` step on a source without string
literals: either end of input, or a token whose reported position is the
post-whitespace state's bookkeeping, whose literal starts with the
character at the current index, and whose consumption advances the index
over non-newline characters only. -/
theorem consume_spec (fuel : Nat) (l₀ : Lexer) (hq : '"' ∉ l₀.source) :
    ((l₀.skip_whitespace).peek = '\x00' ∧ l₀.consume fuel = LexStep.eof)
    ∨ (∃ (t : Token) (k : Nat),
        0 < k
        ∧ l₀.consume fuel = LexStep.tok t
            ⟨(l₀.skip_whitespace).line,
              (l₀.skip_whitespace).index - (l₀.skip_whitespace).last_line_index⟩
            ⟨(l₀.skip_whitespace).source, (l₀.skip_whitespace).index + k,
              (l₀.skip_whitespace).line, (l₀.skip_whitespace).last_line_index⟩
        ∧ (∀ j, j < k → ∃ c, (l₀.skip_whitespace).source.get?
            ((l₀.skip_whitespace).index + j) = some c ∧ c ≠ '\n')
        ∧ (∃ c, (l₀.skip_whitespace).source.get? (l₀.skip_whitespace).index = some c
            ∧ t.literal.data.head? = some c)) := by
  have hsrc : (l₀.skip_whitespace).source = l₀.source := skip_whitespace_source l₀
  have hnws : isRustWhitespace (l₀.skip_whitespace).peek = false := skip_whitespace_not_ws l₀
  set l := l₀.skip_whitespace with hl
  by_cases hd : (l.peek).isDigit = true
  · right
    have hne : l.peek ≠ '\x00' := ((ne_of_class (c := l.peek)).2.1 (Or.inl hd)).2
    have hg : l.source.get? l.index = some l.peek := peek_some hne
    have hidx : l.index < l.source.length := by
      by_contra hc
      rw [List.get?_eq_none.mpr (by omega)] at hg
      cases hg
    have hdrop : l.source.drop l.index = l.peek :: l.source.drop (l.index + 1) := by
      rw [List.drop_eq_getElem_cons hidx]
      congr 1
      have h3 : some (l.source[l.index]) = some l.peek := by
        rw [← List.getElem?_eq_getElem hidx, ← List.get?_eq_getElem?]
        exact hg
      exact Option.some.inj h3
    refine ⟨⟨TokenKind.Number, String.mk (numTake (l.source.drop l.index))⟩,
      (numTake (l.source.drop l.index)).length, ?_, ?_, ?_, ?_⟩
    · rw [hdrop, numTake_cons_digit hd]
      simp
    · simp only [Lexer.consume, ← hl, hd]
      rw [if_pos trivial, Lexer.consume_number,
        consume_number_go_spec (l.source.length - l.index) l [] rfl]
      simp
    · intro j hj
      have hsome : ∃ cj, (numTake (l.source.drop l.index)).get? j = some cj := by
        rw [List.get?_eq_getElem?]
        exact ⟨_, List.getElem?_eq_getElem hj⟩
      obtain ⟨cj, hcj⟩ := hsome
      obtain ⟨hget, hclass⟩ := numTake_get _ j cj hcj
      rw [List.get?_drop] at hget
      exact ⟨cj, hget, ((ne_of_class (c := cj)).2.1 hclass).1⟩
    · refine ⟨l.peek, hg, ?_⟩
      rw [hdrop, numTake_cons_digit hd]
      rfl
  · by_cases ha : (l.peek).isAlpha = true
    · right
      have hwc : isWordChar l.peek = true := by
        simp [isWordChar, Char.isAlphanum, ha]
      have hne : l.peek ≠ '\x00' := ((ne_of_class (c := l.peek)).1 hwc).2
      have hg : l.source.get? l.index = some l.peek := peek_some hne
      have hidx : l.index < l.source.length := by
        by_contra hc
        rw [List.get?_eq_none.mpr (by omega)] at hg
        cases hg
      have hdrop : l.source.drop l.index = l.peek :: l.source.drop (l.index + 1) := by
        rw [List.drop_eq_getElem_cons hidx]
        congr 1
        have h3 : some (l.source[l.index]) = some l.peek := by
          rw [← List.getElem?_eq_getElem hidx, ← List.get?_eq_getElem?]
          exact hg
        exact Option.some.inj h3
      refine ⟨⟨TokenKind.Word, String.mk ((l.source.drop l.index).takeWhile isWordChar)⟩,
        ((l.source.drop l.index).takeWhile isWordChar).length, ?_, ?_, ?_, ?_⟩
      · rw [hdrop, List.takeWhile_cons, if_pos hwc]
        simp
      · simp only [Lexer.consume, ← hl, hd, ha]
        rw [if_neg (by simp), if_pos trivial, Lexer.consume_word,
          consume_word_go_spec (l.source.length - l.index) l [] rfl]
        simp
      · intro j hj
        have hsome : ∃ cj, ((l.source.drop l.index).takeWhile isWordChar).get? j = some cj := by
          rw [List.get?_eq_getElem?]
          exact ⟨_, List.getElem?_eq_getElem hj⟩
        obtain ⟨cj, hcj⟩ := hsome
        obtain ⟨hget, hclass⟩ := takeWhile_get _ j cj hcj
        rw [List.get?_drop] at hget
        exact ⟨cj, hget, ((ne_of_class (c := cj)).1 hclass).1⟩
      · refine ⟨l.peek, hg, ?_⟩
        rw [hdrop, List.takeWhile_cons, if_pos hwc]
        rfl
    · by_cases hs : l.peek = '"'
      · exfalso
        have hne : l.peek ≠ '\x00' := by rw [hs]; decide
        have hg : l.source.get? l.index = some l.peek := peek_some hne
        rw [hs] at hg
        rw [hsrc] at hg
        exact hq (List.get?_mem hg)
      · by_cases h0 : l.peek = '\x00'
        · left
          refine ⟨h0, ?_⟩
          simp only [Lexer.consume, ← hl]
          rw [if_neg hd, if_neg ha, if_neg hs, if_pos h0]
        · right
          have hg : l.source.get? l.index = some l.peek := peek_some h0
          refine ⟨⟨TokenKind.Symbol, String.mk [l.peek]⟩, 1, by omega, ?_, ?_, ?_⟩
          · simp only [Lexer.consume, ← hl]
            rw [if_neg hd, if_neg ha, if_neg hs, if_neg h0, Lexer.consume_char]
            rw [if_neg h0]
            rfl
          · intro j hj
            have hj0 : j = 0 := by omega
            subst hj0
            refine ⟨l.peek, by simpa using hg, ?_⟩
            exact (ne_of_class (c := l.peek)).2.2.1 hnws
          · exact ⟨l.peek, hg, rfl⟩

theorem tokenize_pos_go_spec :
    ∀ (n : Nat) (l : Lexer) (out : List (Token × TokenInfo × Nat)),
      '"' ∉ l.source → lexPos l →
      tokenize_pos_go n l = some out →
      ∀ x ∈ out, x.2.1 = ⟨specLine l.source x.2.2, specCol l.source x.2.2⟩
        ∧ ∃ c, l.source.get? x.2.2 = some c ∧ x.1.literal.data.head? = some c := by
  intro n
  induction n with
  | zero => intro l out hq hpos h; cases h
  | succ n ih =>
    intro l out hq hpos h
    rw [tokenize_pos_go] at h
    have hsrc : (l.skip_whitespace).source = l.source := skip_whitespace_source l
    have hpos1 : lexPos l.skip_whitespace := skip_whitespace_pos hpos
    rcases consume_spec (n + 1) l hq with ⟨hnul, hcons⟩ | ⟨t, k, hk, hcons, hchars, hhead⟩
    · rw [hcons] at h
      simp only [Option.some.injEq] at h
      subst h
      intro x hx
      cases hx
    · rw [hcons] at h
      dsimp only at h
      cases hrec : tokenize_pos_go n
          ⟨(l.skip_whitespace).source, (l.skip_whitespace).index + k,
            (l.skip_whitespace).line, (l.skip_whitespace).last_line_index⟩ with
      | none => rw [hrec] at h; cases h
      | some rest =>
        rw [hrec] at h
        simp only [Option.some.injEq] at h
        subst h
        have hpos2 : lexPos ⟨(l.skip_whitespace).source, (l.skip_whitespace).index + k,
            (l.skip_whitespace).line, (l.skip_whitespace).last_line_index⟩ :=
          lexPos_advanceBy k l.skip_whitespace hpos1 hchars
        have htail := ih _ rest (by rw [hsrc]; exact hq) hpos2 hrec
        intro x hx
        rcases List.mem_cons.mp hx with rfl | hx2
        · refine ⟨?_, ?_⟩
          · obtain ⟨p1, p2, p3⟩ := hpos1
            simp only
            rw [p1, p2, hsrc]
          · obtain ⟨c, hc, hhd⟩ := hhead
            rw [hsrc] at hc
            exact ⟨c, hc, hhd⟩
        · have := htail x hx2
          simpa [hsrc] using this

theorem tokenize_go_erase :
    ∀ (n : Nat) (l : Lexer),
      tokenize_go n l = (tokenize_pos_go n l).map (List.map (fun x => (x.1, x.2.1))) := by
  intro n
  induction n with
  | zero => intro l; rfl
  | succ n ih =>
    intro l
    rw [tokenize_go, tokenize_pos_go]
    cases l.consume (n + 1) with
    | eof => rfl
    | spin => rfl
    | tok t info l' =>
      dsimp only
      rw [ih l']
      cases tokenize_pos_go n l' with
      | none => rfl
      | some rest => rfl

/-- Claim C3, amended: on a source containing no string literal (no `"`
character; the lexer does not count newlines consumed inside string
literals, which shifts positions after a multi-line string), every token's
reported `TokenInfo` is the position of the token's first character, with
`line` the number of `'\n'` characters before that character and `col` its
offset from the start of its line. -/
theorem c3_positions :
    ∀ (fuel : Nat) (s : List Char) (toks : List (Token × TokenInfo)),
      '"' ∉ s →
      tokenize_go fuel (Lexer.new s) = some toks →
      ∀ ti ∈ toks, ∃ i, ti.2 = ⟨specLine s i, specCol s i⟩
        ∧ ∃ c, s.get? i = some c ∧ ti.1.literal.data.head? = some c := by
  intro fuel s toks hq h ti hti
  rw [tokenize_go_erase] at h
  cases hpos : tokenize_pos_go fuel (Lexer.new s) with
  | none => rw [hpos] at h; cases h
  | some out =>
    rw [hpos] at h
    simp only [Option.map_some', Option.some.injEq] at h
    subst h
    obtain ⟨x, hx, hxe⟩ := List.mem_map.mp hti
    have hfacts := tokenize_pos_go_spec fuel (Lexer.new s) out hq
      ⟨rfl, rfl, le_refl 0⟩ hpos x hx
    refine ⟨x.2.2, ?_, ?_⟩
    · rw [← hxe]
      exact hfacts.1
    · obtain ⟨c, hc, hhd⟩ := hfacts.2
      exact ⟨c, hc, by rw [← hxe]; exact hhd⟩

/-- Claim C3 counterexample: in the source `"a\nb" x` the character `x`
sits at index 6, after one newline (inside the string literal) and at
offset 3 from the start of its line, so the claim predicts position
`(1, 3)`; the lexer reports `(0, 6)` because newlines inside string
literals never update the line counter. -/
theorem c3_counterexample :
    tokenize "\"a\nb\" x" 30 =
      some [(⟨TokenKind.String, "\"a\nb\""⟩, ⟨0, 0⟩), (⟨TokenKind.Word, "x"⟩, ⟨0, 6⟩)]
    ∧ specLine "\"a\nb\" x".data 6 = 1
    ∧ specCol "\"a\nb\" x".data 6 = 3
    ∧ (⟨0, 6⟩ : TokenInfo) ≠ ⟨specLine "\"a\nb\" x".data 6, specCol "\"a\nb\" x".data 6⟩ := by
  refine ⟨by decide, by decide, by decide, by decide⟩

/-- Witness for C3's amended theorem. -/
theorem c3_witness :
    ∃ i, ((⟨TokenKind.Word, "ab"⟩, ⟨0, 0⟩) : Token × TokenInfo).2
        = ⟨specLine "ab".data i, specCol "ab".data i⟩
      ∧ ∃ c, "ab".data.get? i = some c
        ∧ ((⟨TokenKind.Word, "ab"⟩, ⟨0, 0⟩) : Token × TokenInfo).1.literal.data.head? = some c :=
  c3_positions 10 "ab".data [(⟨TokenKind.Word, "ab"⟩, ⟨0, 0⟩)] (by decide) (by decide)
    (⟨TokenKind.Word, "ab"⟩, ⟨0, 0⟩) (by decide)

/-! ## Claim C10: a NUL outside string literals truncates the input -/

theorem take_get_eq {s : List Char} {k : Nat} (hnul : s.get? k = some '\x00') :
    ∀ j, j ≤ k → ((s.take k).get? j).getD '\x00' = (s.get? j).getD '\x00' := by
  intro j hj
  rcases Nat.lt_or_ge j k with hlt | hge
  · rw [List.get?_eq_getElem?, List.get?_eq_getElem? s, List.getElem?_take, if_pos hlt]
  · have : j = k := by omega
    subst this
    rw [hnul, List.get?_eq_getElem?, List.getElem?_take, if_neg (by omega)]
    rfl

theorem take_peek_eq {s : List Char} {k : Nat} (hnul : s.get? k = some '\x00')
    {i li ll : Nat} (hi : i ≤ k) :
    Lexer.peek ⟨s.take k, i, li, ll⟩ = Lexer.peek ⟨s, i, li, ll⟩ := by
  rw [peek_eq, peek_eq]
  exact take_get_eq hnul i hi

theorem takeWhile_append_stop {p : Char → Bool} {z : Char} (hz : p z = false) :
    ∀ (X Y : List Char), ((X ++ z :: Y).takeWhile p) = X.takeWhile p := by
  intro X Y
  induction X with
  | nil => simp [List.takeWhile_cons, hz]
  | cons a X ih =>
    simp only [List.cons_append, List.takeWhile_cons]
    by_cases hp : p a = true
    · rw [if_pos hp, if_pos hp, ih]
    · rw [if_neg hp, if_neg hp]

theorem numTake_append_stop :
    ∀ (X Y : List Char), numTake (X ++ '\x00' :: Y) = numTake X := by
  intro X Y
  induction X with
  | nil =>
    rw [List.nil_append, numTake.eq_def]
    dsimp only
    rw [if_neg (by decide), if_neg (by simp [show (('\x00' : Char) == '.') = false from rfl])]
    rfl
  | cons a X ih =>
    cases X with
    | nil =>
      simp only [List.nil_append] at ih
      rw [List.cons_append, List.nil_append, numTake.eq_def]
      conv_rhs => rw [numTake.eq_def]
      dsimp only
      by_cases h1 : a.isDigit = true
      · rw [if_pos h1, if_pos h1, ih]
      · rw [if_neg h1, if_neg h1,
          if_neg (by simp [show Char.isDigit '\x00' = false from rfl]),
          if_neg (by simp)]
    | cons b Xt =>
      simp only [List.cons_append] at ih ⊢
      rw [numTake.eq_def]
      conv_rhs => rw [numTake.eq_def]
      dsimp only
      by_cases h1 : a.isDigit = true
      · rw [if_pos h1, if_pos h1, ih]
      · by_cases h2 : (a == '.' && b.isDigit) = true
        · rw [if_neg h1, if_neg h1, if_pos h2, if_pos h2, ih]
        · rw [if_neg h1, if_neg h1, if_neg h2, if_neg h2]

theorem numTake_length_le : ∀ xs : List Char, (numTake xs).length ≤ xs.length := by
  intro xs
  induction xs with
  | nil => simp [numTake]
  | cons a tl ih =>
    rw [numTake.eq_def]
    dsimp only
    by_cases h1 : a.isDigit = true
    · rw [if_pos h1]
      simpa using ih
    · rw [if_neg h1]
      split
      · simpa using ih
      · simp

theorem skip_go_take {s : List Char} {k : Nat} (hk : k < s.length)
    (hnul : s.get? k = some '\x00') :
    ∀ (n m i li ll : Nat), s.length - i ≤ n → k - i ≤ m → i ≤ k →
      ∃ i2 li2 ll2,
        skip_whitespace_go n ⟨s, i, li, ll⟩ = ⟨s, i2, li2, ll2⟩
        ∧ skip_whitespace_go m ⟨s.take k, i, li, ll⟩ = ⟨s.take k, i2, li2, ll2⟩
        ∧ i2 ≤ k := by
  intro n
  induction n with
  | zero =>
    intro m i li ll hn hm hik
    omega
  | succ n ih =>
    intro m i li ll hn hm hik
    have hpk : Lexer.peek ⟨s.take k, i, li, ll⟩ = Lexer.peek ⟨s, i, li, ll⟩ :=
      take_peek_eq hnul hik
    by_cases hw : isRustWhitespace (Lexer.peek ⟨s, i, li, ll⟩) = true
    · have hne : Lexer.peek ⟨s, i, li, ll⟩ ≠ '\x00' := (ne_of_class.2.2.2) hw
      have hg : s.get? i = some (Lexer.peek ⟨s, i, li, ll⟩) := peek_some hne
      have hik2 : i < k := by
        rcases Nat.lt_or_ge i k with h | h
        · exact h
        · have : i = k := by omega
          subst this
          rw [hnul] at hg
          exact absurd (Option.some.inj hg).symm hne
      cases m with
      | zero => omega
      | succ m =>
        by_cases hnl : Lexer.peek ⟨s, i, li, ll⟩ = '\n'
        · obtain ⟨i2, li2, ll2, hA, hB, hle⟩ :=
            ih m (i + 1) (li + 1) (i + 1) (by omega) (by omega) (by omega)
          refine ⟨i2, li2, ll2, ?_, ?_, hle⟩
          · rw [skip_whitespace_go, if_pos hw, if_pos hnl]
            exact hA
          · rw [skip_whitespace_go, if_pos (by rw [hpk]; exact hw), hpk, if_pos hnl]
            exact hB
        · obtain ⟨i2, li2, ll2, hA, hB, hle⟩ :=
            ih m (i + 1) li ll (by omega) (by omega) (by omega)
          refine ⟨i2, li2, ll2, ?_, ?_, hle⟩
          · rw [skip_whitespace_go, if_pos hw, if_neg hnl]
            exact hA
          · rw [skip_whitespace_go, if_pos (by rw [hpk]; exact hw), hpk, if_neg hnl]
            exact hB
    · refine ⟨i, li, ll, ?_, ?_, hik⟩
      · rw [skip_whitespace_go, if_neg hw]
      · cases m with
        | zero => rfl
        | succ m => rw [skip_whitespace_go, if_neg (by rw [hpk]; exact hw)]

theorem drop_split_at_nul {s : List Char} {k : Nat} (hk : k < s.length)
    (hnul : s.get? k = some '\x00') {i2 : Nat} (hi2 : i2 ≤ k) :
    s.drop i2 = (s.take k).drop i2 ++ '\x00' :: s.drop (k + 1) := by
  have h1 : s.drop k = '\x00' :: s.drop (k + 1) := by
    rw [List.drop_eq_getElem_cons hk]
    congr 1
    have h3 : some (s[k]) = some '\x00' := by
      rw [← List.getElem?_eq_getElem hk, ← List.get?_eq_getElem?]
      exact hnul
    exact Option.some.inj h3
  conv_lhs => rw [← List.take_append_drop k s]
  rw [List.drop_append_eq_append_drop]
  rw [List.length_take, Nat.min_eq_left (Nat.le_of_lt hk)]
  rw [Nat.sub_eq_zero_of_le hi2, List.drop_zero, h1]

theorem consume_take {s : List Char} {k : Nat} (hq : '"' ∉ s) (hk : k < s.length)
    (hnul : s.get? k = some '\x00') :
    ∀ (fuel i li ll : Nat), i ≤ k →
      (Lexer.consume fuel ⟨s, i, li, ll⟩ = LexStep.eof
        ∧ Lexer.consume fuel ⟨s.take k, i, li, ll⟩ = LexStep.eof)
      ∨ (∃ t info i2 li2 ll2, i2 ≤ k
          ∧ Lexer.consume fuel ⟨s, i, li, ll⟩ = LexStep.tok t info ⟨s, i2, li2, ll2⟩
          ∧ Lexer.consume fuel ⟨s.take k, i, li, ll⟩
              = LexStep.tok t info ⟨s.take k, i2, li2, ll2⟩) := by
  intro fuel i li ll hik
  obtain ⟨i2, li2, ll2, hA, hB, hle⟩ :=
    skip_go_take hk hnul (s.length - i) ((s.take k).length - i) i li ll (le_refl _)
      (by rw [List.length_take, Nat.min_eq_left (Nat.le_of_lt hk)]) hik
  have hskipS : Lexer.skip_whitespace ⟨s, i, li, ll⟩ = ⟨s, i2, li2, ll2⟩ := by
    rw [Lexer.skip_whitespace]; exact hA
  have hskipT : Lexer.skip_whitespace ⟨s.take k, i, li, ll⟩ = ⟨s.take k, i2, li2, ll2⟩ := by
    rw [Lexer.skip_whitespace]; exact hB
  have hpk2 : Lexer.peek ⟨s.take k, i2, li2, ll2⟩ = Lexer.peek ⟨s, i2, li2, ll2⟩ :=
    take_peek_eq hnul hle
  have hdropEq : ∀ p : Char → Bool, p '\x00' = false →
      (s.drop i2).takeWhile p = ((s.take k).drop i2).takeWhile p := by
    intro p hp
    rw [drop_split_at_nul hk hnul hle, takeWhile_append_stop hp]
  have hnumEq : numTake (s.drop i2) = numTake ((s.take k).drop i2) := by
    rw [drop_split_at_nul hk hnul hle, numTake_append_stop]
  by_cases hd : (Lexer.peek ⟨s, i2, li2, ll2⟩).isDigit = true
  · right
    refine ⟨⟨TokenKind.Number, String.mk (numTake (s.drop i2))⟩, ⟨li2, i2 - ll2⟩,
      i2 + (numTake (s.drop i2)).length, li2, ll2, ?_, ?_, ?_⟩
    · have hlen : (numTake ((s.take k).drop i2)).length ≤ k - i2 := by
        have := numTake_length_le ((s.take k).drop i2)
        rw [List.length_drop, List.length_take, Nat.min_eq_left (Nat.le_of_lt hk)] at this
        omega
      rw [hnumEq]
      omega
    · simp only [Lexer.consume, hskipS, hd]
      rw [if_pos trivial, Lexer.consume_number, consume_number_go_spec _ _ _ rfl]
      simp
    · simp only [Lexer.consume, hskipT, hpk2, hd]
      rw [if_pos trivial, Lexer.consume_number, consume_number_go_spec _ _ _ rfl]
      simp only [List.nil_append]
      rw [← hnumEq]
  · by_cases ha : (Lexer.peek ⟨s, i2, li2, ll2⟩).isAlpha = true
    · right
      have hwEq : (s.drop i2).takeWhile isWordChar = ((s.take k).drop i2).takeWhile isWordChar :=
        hdropEq isWordChar (by decide)
      refine ⟨⟨TokenKind.Word, String.mk ((s.drop i2).takeWhile isWordChar)⟩, ⟨li2, i2 - ll2⟩,
        i2 + ((s.drop i2).takeWhile isWordChar).length, li2, ll2, ?_, ?_, ?_⟩
      · have hlen : (((s.take k).drop i2).takeWhile isWordChar).length ≤ k - i2 := by
          have h5 := (List.takeWhile_sublist (l := (s.take k).drop i2) isWordChar).length_le
          rw [List.length_drop, List.length_take, Nat.min_eq_left (Nat.le_of_lt hk)] at h5
          omega
        rw [hwEq]
        omega
      · simp only [Lexer.consume, hskipS, hd, ha]
        rw [if_neg (by simp), if_pos trivial, Lexer.consume_word, consume_word_go_spec _ _ _ rfl]
        simp
      · simp only [Lexer.consume, hskipT, hpk2, hd, ha]
        rw [if_neg (by simp), if_pos trivial, Lexer.consume_word, consume_word_go_spec _ _ _ rfl]
        simp only [List.nil_append]
        rw [← hwEq]
    · by_cases hqs : Lexer.peek ⟨s, i2, li2, ll2⟩ = '"'
      · exfalso
        have hg : s.get? i2 = some (Lexer.peek ⟨s, i2, li2, ll2⟩) :=
          peek_some (by rw [hqs]; decide)
        rw [hqs] at hg
        exact hq (List.get?_mem hg)
      · by_cases h0 : Lexer.peek ⟨s, i2, li2, ll2⟩ = '\x00'
        · left
          constructor
          · simp only [Lexer.consume, hskipS]
            rw [if_neg hd, if_neg ha, if_neg hqs, if_pos h0]
          · simp only [Lexer.consume, hskipT, hpk2]
            rw [if_neg hd, if_neg ha, if_neg hqs, if_pos h0]
        · right
          have hg : s.get? i2 = some (Lexer.peek ⟨s, i2, li2, ll2⟩) := peek_some h0
          have hik2 : i2 < k := by
            rcases Nat.lt_or_ge i2 k with h | h
            · exact h
            · have : i2 = k := by omega
              subst this
              rw [hnul] at hg
              exact absurd (Option.some.inj hg).symm h0
          refine ⟨⟨TokenKind.Symbol, String.mk [Lexer.peek ⟨s, i2, li2, ll2⟩]⟩,
            ⟨li2, i2 - ll2⟩, i2 + 1, li2, ll2, by omega, ?_, ?_⟩
          · simp only [Lexer.consume, hskipS]
            rw [if_neg hd, if_neg ha, if_neg hqs, if_neg h0, Lexer.consume_char, if_neg h0]
            rfl
          · simp only [Lexer.consume, hskipT, hpk2]
            rw [if_neg hd, if_neg ha, if_neg hqs, if_neg h0, Lexer.consume_char]
            rw [hpk2, if_neg h0]
            rfl

theorem tokenize_go_take {s : List Char} {k : Nat} (hq : '"' ∉ s) (hk : k < s.length)
    (hnul : s.get? k = some '\x00') :
    ∀ (n i li ll : Nat), i ≤ k →
      tokenize_go n ⟨s, i, li, ll⟩ = tokenize_go n ⟨s.take k, i, li, ll⟩ := by
  intro n
  induction n with
  | zero => intro i li ll _; rfl
  | succ n ih =>
    intro i li ll hik
    rw [tokenize_go, tokenize_go]
    rcases consume_take hq hk hnul (n + 1) i li ll hik with ⟨h1, h2⟩ |
      ⟨t, info, i2, li2, ll2, hle, h1, h2⟩
    · rw [h1, h2]
    · rw [h1, h2]
      dsimp only
      rw [ih i2 li2 ll2 hle]

/-- Claim C10, amended: a NUL character occurring outside any string
literal truncates the input: tokenizing the whole source and tokenizing
only the prefix before the first such NUL give exactly the same token
sequence (formalized for sources with no `"` character); a NUL inside a
string literal, however, is consumed as part of the String token and
tokenization continues past it. -/
theorem c10_nul_truncates :
    (∀ (s : List Char) (k : Nat) (n : Nat), '"' ∉ s → s.get? k = some '\x00' →
      tokenize_go n (Lexer.new s) = tokenize_go n (Lexer.new (s.take k)))
    ∧ tokenize "ab\x00cd" 10 = some [(⟨TokenKind.Word, "ab"⟩, ⟨0, 0⟩)]
    ∧ tokenize "ab\x00cd" 10 = tokenize "ab" 10 := by
  refine ⟨?_, by decide, by decide⟩
  intro s k n hq hnul
  have hk : k < s.length := by
    by_contra hc
    rw [List.get?_eq_none.mpr (by omega)] at hnul
    cases hnul
  exact tokenize_go_take hq hk hnul n 0 0 0 (by omega)

/-- Claim C10 counterexample: in the source `"a` NUL `b" x` the NUL sits
inside a string literal (index 2); the lexer consumes it as part of the
String token and still produces the later `x` token, so the NUL is not
treated as end of input. -/
theorem c10_counterexample :
    ("\"a\x00b\" x".data).get? 2 = some '\x00'
    ∧ tokenize "\"a\x00b\" x" 30 =
        some [(⟨TokenKind.String, "\"a\x00b\""⟩, ⟨0, 0⟩), (⟨TokenKind.Word, "x"⟩, ⟨0, 6⟩)] := by
  refine ⟨by decide, by decide⟩

/-- Witness for C10's amended theorem. -/
theorem c10_witness :
    tokenize_go 10 (Lexer.new "ab\x00cd".data)
      = tokenize_go 10 (Lexer.new ("ab\x00cd".data.take 2)) :=
  c10_nul_truncates.1 "ab\x00cd".data 2 10 (by decide) (by decide)

/-! ## Sanity checks mirroring the repository's unit tests -/

example : tokenize "hello\nworld!\nline 3" 30 =
    some [(⟨TokenKind.Word, "hello"⟩, ⟨0, 0⟩),
          (⟨TokenKind.Word, "world"⟩, ⟨1, 0⟩),
          (⟨TokenKind.Symbol, "!"⟩, ⟨1, 5⟩),
          (⟨TokenKind.Word, "line"⟩, ⟨2, 0⟩),
          (⟨TokenKind.Number, "3"⟩, ⟨2, 5⟩)] := by decide

example : tokenize "123..11" 20 =
    some [(⟨TokenKind.Number, "123"⟩, ⟨0, 0⟩),
          (⟨TokenKind.Symbol, "."⟩, ⟨0, 3⟩),
          (⟨TokenKind.Symbol, "."⟩, ⟨0, 4⟩),
          (⟨TokenKind.Number, "11"⟩, ⟨0, 5⟩)] := by decide

example : Parser.from_tokens [] = Except.ok ⟨[], []⟩ := by
  simp [Parser.from_tokens, Parser.from_tokens_loop, Parser.new]

example :
    Parser.from_tokens
      [(⟨TokenKind.Word, "thing"⟩, ⟨0, 0⟩), (⟨TokenKind.String, "\"N\""⟩, ⟨0, 6⟩),
       (⟨TokenKind.Symbol, "\x7b"⟩, ⟨0, 10⟩), (⟨TokenKind.Symbol, "\x7d"⟩, ⟨0, 12⟩)] =
      Except.ok ⟨[("N", Thing.new "N")], []⟩ := by
  simp [Parser.from_tokens, Parser.from_tokens_loop, Parser.parse_token, Parser.parse_thing,
    Parser.add_thing, Parser.new, Thing.new, strip_quotes, Thing.name, insertKV]
